import Mathlib

/-!
Verification of the shard-caching core of `wids/wids.py` (webdataset).

The Python source is shallowly embedded: pure functions become Lean
functions on `List`/`Nat`/`Int`, raising an exception is modelled by
returning `none`, and stateful objects become explicit state records.
Strings are Lean `String`s; where character-level reasoning is needed we
work on `String.toList`.
-/

/-! ## splitname

`splitname` in the source asserts `"." in fname` and then matches the
regular expression `^((?:.*/)?.*?)(\..*)$`, returning the two groups
`(basename, extension)`.  The regex semantics on a newline-free string:
the greedy optional group `(?:.*/)?` first tries the longest candidate
ending in `/`; for each such candidate the lazy `.*?` stops at the first
`.` of the remaining suffix, which must exist for the match to succeed.
Hence the match splits the name at the first `.` of the last
`/`-separated segment that contains a `.` (backtracking to earlier
segments when the final segment is dot-free), and fails exactly when the
name contains no `.` at all.  `splitnameCore` implements this by
structural recursion for newline-free input: the test `'/' ∈ k` detects
that the split of the tail happened in a later segment.  Python's
newline handling (`.` never matches `'\n'`, `$` also matches just before
one final newline) is layered on top in `splitnamePy` below. -/
def splitnameCore : List Char → Option (List Char × List Char)
  | [] => none
  | c :: cs =>
    if c = '/' then
      (splitnameCore cs).map (fun p => ('/' :: p.1, p.2))
    else
      match splitnameCore cs with
      | some (k, e) =>
        if '/' ∈ k then some (c :: k, e)
        else if c = '.' then some ([], c :: cs) else some (c :: k, e)
      | none => if c = '.' then some ([], c :: cs) else none

/-- The string with one final newline removed, if any: the region of a
name that Python's anchored regex match can actually cover, since `$`
matches at the end of the string or just before a newline that ends it. -/
def stripTrailingNewline : List Char → List Char
  | [] => []
  | [c] => if c = '\n' then [] else [c]
  | c :: d :: cs => c :: stripTrailingNewline (d :: cs)

/-- The full Python `re.match` semantics of the splitname regex: `.`
never matches a newline and `$` also matches just before one final
newline, so an anchored match must cover the whole name minus at most
one trailing newline and can cross no newline — the regex matches
exactly when `stripTrailingNewline` of the name is newline-free and
contains a `'.'`, and then it splits that stripped name (a trailing
newline is silently dropped from the extension).  A name with an
interior newline yields no match even when it contains a `'.'`: there
`splitname` raises `AttributeError` on `.groups()`. -/
def splitnamePy (s : List Char) : Option (List Char × List Char) :=
  if '\n' ∈ stripTrailingNewline s then none
  else splitnameCore (stripTrailingNewline s)

/-- Python `splitname` on a `String`; `none` models the raised error
(assertion failure on a name without a dot, or `AttributeError` when the
regex fails to match). -/
def splitname (fname : String) : Option (String × String) :=
  (splitnamePy fname.toList).map (fun p => (String.mk p.1, String.mk p.2))

/-- Suffix after the last `'/'` of the list (the whole list when it has
no `'/'`). -/
def afterLastSlash : List Char → List Char
  | [] => []
  | c :: cs => if '/' ∈ cs then afterLastSlash cs else if c = '/' then cs else c :: cs

/-- Suffix after the first `'/'` of the list (`[]` when it has none). -/
def afterFirstSlash : List Char → List Char
  | [] => []
  | c :: cs => if c = '/' then cs else afterFirstSlash cs

/-- Splitting a list at its first `'.'`: `some (before, fromDot)`.  Used
both inside the claimed split rule and in proofs. -/
def splitAtFirstDot : List Char → Option (List Char × List Char)
  | [] => none
  | c :: cs =>
    if c = '.' then some ([], c :: cs)
    else (splitAtFirstDot cs).map (fun p => (c :: p.1, p.2))

/-- The split rule exactly as the claim states it: `(key, extension)` cut
at the first `'.'` that follows the last path separator (the first `'.'`
of the whole name when there is no separator).  Written from the claim's
words, to be compared with `splitnameCore`. -/
def splitname_claimed (s : List Char) : Option (List Char × List Char) :=
  (splitAtFirstDot (afterLastSlash s)).map
    (fun p => (s.take (s.length - (afterLastSlash s).length) ++ p.1, p.2))

/-! ## group_by_key -/

/-- Loop body of Python `group_by_key`: walks the names with the running
index `i`, the key of the previous kept name (`last_key`, `None`
initially), the group being built (`current`) and the finished groups.
A name whose `splitnameCore` is `none` (equivalently: a name with no
`'.'`, see `splitnameCore_eq_none_iff`) is skipped after a printed
warning, which has no effect on the result. -/
def group_by_key_go : List String → Nat → Option (List Char) → List Nat →
    List (List Nat) → List (List Nat)
  | [], _, _, current, groups => if current.isEmpty then groups else groups ++ [current]
  | fname :: rest, i, last_key, current, groups =>
    match splitnameCore fname.toList with
    | none => group_by_key_go rest (i + 1) last_key current groups
    | some (key, _) =>
      if some key = last_key then
        group_by_key_go rest (i + 1) last_key (current ++ [i]) groups
      else
        group_by_key_go rest (i + 1) (some key) [i]
          (if current.isEmpty then groups else groups ++ [current])

/-- Python `group_by_key`: groups the member-name indices of a tar file
into consecutive runs sharing the same split key.  This total version is
faithful for member-name lists on which no regex match fails, i.e. no
kept name has an interior newline — exactly the lists for which a Sample
Grouper is constructible at all; `group_by_key_py` below additionally
models the fatal `AttributeError` on interior-newline names. -/
def group_by_key (names : List String) : List (List Nat) :=
  group_by_key_go names 0 none [] []

/-- The key of a member name (first component of the split), `[]` for a
name that cannot be split. -/
def nameKey (n : String) : List Char := ((splitnameCore n.toList).map Prod.fst).getD []

/-- Reference description from the claim: the remaining member names
(those containing a `'.'`), enumerated from `i`, each paired with its
split key. -/
def keptKeysFrom (i : Nat) : List String → List (Nat × List Char)
  | [] => []
  | n :: rest =>
    if '.' ∈ n.toList then (i, nameKey n) :: keptKeysFrom (i + 1) rest
    else keptKeysFrom (i + 1) rest

/-- Reference description from the claim: one group of indices per
maximal run of consecutive entries sharing the same key. -/
def runGroups : List (Nat × List Char) → List (List Nat)
  | [] => []
  | (i, k) :: rest =>
    (i :: (rest.takeWhile (fun p => decide (p.2 = k))).map Prod.fst)
      :: runGroups (rest.dropWhile (fun p => decide (p.2 = k)))
termination_by l => l.length
decreasing_by
  simp only [List.length_cons]
  exact Nat.lt_succ_of_le (List.dropWhile_sublist _).length_le

/-! ## IndexedTarSamples -/

/-- Python list indexing `l[i]`: negative indices count from the end;
out-of-range access raises (modelled as `none`). -/
def pyListGet (l : List α) (i : Int) : Option α :=
  if 0 ≤ i then l[i.toNat]?
  else if 0 ≤ i + l.length then l[(i + l.length).toNat]? else none

/-- Python dict assignment `d[k] = v` on an insertion-ordered association
list: replaces an existing binding in place, otherwise appends. -/
def dictInsert (d : List (List Char × α)) (k : List Char) (v : α) : List (List Char × α) :=
  match d with
  | [] => [(k, v)]
  | (k', v') :: rest => if k' = k then (k, v) :: rest else (k', v') :: dictInsert rest k v

/-- Lookup in the association list modelling a Python dict. -/
def dictLookup (d : List (List Char × α)) (k : List Char) : Option α :=
  match d with
  | [] => none
  | (k', v') :: rest => if k' = k then some v' else dictLookup rest k

/-- A sample as assembled by `IndexedTarSamples.__getitem__`: the
extension-keyed byte streams, plus the `"__key__"` entry kept as a
separate field. -/
structure TarSample (α : Type) where
  entries : List (List Char × α)
  key : Option (List Char)
deriving Repr, DecidableEq

/-- Loop of `IndexedTarSamples.__getitem__` over the member indices of
one group.  `names` and `stream` model `reader.get_file(i)` returning
`(names[i], stream i)`.  Mirrors the Python statements in order:
fetch the file, split the name, `key = key or k`, `assert key == k`
(failure modelled as `none`), then `sample[ext] = data`. -/
def buildSampleGo (names : List String) (stream : Nat → α) :
    List Nat → Option (List Char) → List (List Char × α) → Option (TarSample α)
  | [], key, acc => some ⟨acc, key⟩
  | i :: rest, key, acc =>
    match names[i]? with
    | none => none
    | some fname =>
      match splitnameCore fname.toList with
      | none => none
      | some (k, ext) =>
        let key' : Option (List Char) :=
          match key with
          | none => some k
          | some s => if s = [] then some k else some s
        if key' = some k then
          buildSampleGo names stream rest key' (dictInsert acc ext (stream i))
        else none

/-- Python `IndexedTarSamples.__getitem__(idx)`: resolves the `idx`-th
group in `samples` (Python list indexing) and assembles the sample. -/
def IndexedTarSamples.getitem (names : List String) (stream : Nat → α)
    (samples : List (List Nat)) (idx : Int) : Option (TarSample α) :=
  match pyListGet samples idx with
  | none => none
  | some indexes => buildSampleGo names stream indexes none []

example : group_by_key ["a.jpg", "a.txt", "b.jpg", "c.jpg", "c.txt"] = [[0, 1], [2], [3, 4]] := by
  decide

example : splitnameCore "a.b/c".toList = some ("a".toList, ".b/c".toList) := by decide

example :
    IndexedTarSamples.getitem ["a.jpg", "a.txt", "b.jpg", "c.jpg", "c.txt"] (fun i => i)
      (group_by_key ["a.jpg", "a.txt", "b.jpg", "c.jpg", "c.txt"]) 1
      = some ⟨[(".jpg".toList, 2)], some "b".toList⟩ := by decide

/-! ## ShardListDataset: index resolution -/

/-- Running cumulative sum with accumulator `acc`; `cumsum` below models
`np.cumsum(self.lengths)`. -/
def cumsum_go (acc : Nat) : List Nat → List Nat
  | [] => []
  | x :: xs => (acc + x) :: cumsum_go (acc + x) xs

/-- `np.cumsum` over the per-shard lengths. -/
def cumsum (l : List Nat) : List Nat := cumsum_go 0 l

/-- `np.searchsorted(a, v, side="right")` on the sorted array `a`: the
upper-bound insertion point, i.e. the first position whose element is
strictly greater than `v` (numpy computes it by binary search; on a
sorted array the result is this value). -/
def searchsorted_right (a : List Nat) (v : Int) : Nat :=
  match a with
  | [] => 0
  | x :: rest => if v < (x : Int) then 0 else searchsorted_right rest v + 1

/-- Index-resolution part of `ShardListDataset.get_shard`: the shard
index found by the upper-bound search over the cumulative table, and the
inner index `index - cum_lengths[shard_idx - 1]` (`index` itself for the
first shard). -/
def ShardListDataset.get_shard_idx (lengths : List Nat) (index : Int) : Nat × Int :=
  let cum := cumsum lengths
  let shard_idx := searchsorted_right cum index
  (shard_idx,
    if shard_idx = 0 then index else index - (cum.getD (shard_idx - 1) 0 : Int))

/-- One shard descriptor as consumed by `ShardListDataset`: the `"url"`
and `"nsamples"` fields of the descriptor dict, together with the member
names of the tar archive behind the url (the content the external
fetch/open collaborator materialises). -/
structure ShardDesc where
  url : String
  nsamples : Nat
  members : List String

/-- Python `ShardListDataset.__getitem__(index)`: resolve the shard by
the upper-bound search, fail with `IndexError` (modelled `none`) when
`self.shards[shard_idx]` is out of range, then retrieve the local sample
from the shard's `IndexedTarSamples`, whose groups are `group_by_key` of
its member names.  `stream url i` models the bytes of member `i` of the
shard at `url`.  The sample decorations and the transformation pipeline
do not affect success of index resolution and are not modelled. -/
def ShardListDataset.getitem (shards : List ShardDesc) (stream : String → Nat → α)
    (index : Int) : Option (TarSample α) :=
  let lengths := shards.map (fun d => d.nsamples)
  let r := ShardListDataset.get_shard_idx lengths index
  match shards[r.1]? with
  | none => none
  | some desc =>
    IndexedTarSamples.getitem desc.members (stream desc.url) (group_by_key desc.members) r.2

/-! ## LRU shard cache -/

/-- Modelled from the spec: the repository's `wids_lru.LRUCache` (module
`wids/wids_lru.py`, imported by `wids.py` but not part of the sources
here) — a bounded pool of entries ordered by recency (most recent
first); a hit marks the entry most-recently-used; an insert evicts the
least-recently-used entries beyond the capacity, releasing them through
the release handler. -/
structure LRUCache (α : Type) where
  capacity : Nat
  entries : List (String × α)

/-- Membership test `url in lru`. -/
def LRUCache.containsKey (c : LRUCache α) (k : String) : Bool :=
  c.entries.any (fun p => p.1 == k)

/-- Value lookup `lru[url]` (without the recency update). -/
def LRUCache.lookup (c : LRUCache α) (k : String) : Option α :=
  (c.entries.find? (fun p => p.1 == k)).map Prod.snd

/-- Mark an entry most-recently-used on a cache hit. -/
def LRUCache.touch (c : LRUCache α) (k : String) : LRUCache α :=
  match c.entries.find? (fun p => p.1 == k) with
  | none => c
  | some e => ⟨c.capacity, e :: c.entries.filter (fun p => p.1 != k)⟩

/-- Insert `lru[url] = v`, evicting least-recently-used entries beyond
the capacity (the evicted tail is closed by the release handler and
dropped). -/
def LRUCache.insert (c : LRUCache α) (k : String) (v : α) : LRUCache α :=
  let newEntries := (k, v) :: c.entries.filter (fun p => p.1 != k)
  ⟨c.capacity, newEntries.take c.capacity⟩

/-- State of Python `LRUShards`: the LRU pool plus the statistics
counters and the `last_missed` flag. -/
structure LRUShards (α : Type) where
  lru : LRUCache α
  accesses : Nat
  misses : Nat
  last_missed : Bool

/-- A fresh `LRUShards` as built by `__init__`: empty pool of the given
capacity, counters zeroed by `reset_stats` (the `last_missed` attribute
does not exist yet in Python; it is modelled as `false`). -/
def LRUShards.init (cap : Nat) : LRUShards α := ⟨⟨cap, []⟩, 0, 0, false⟩

/-- Python `LRUShards.get_shard(url)`: always increments `accesses`; on a
miss downloads and opens the shard (`openShard url`), inserts it,
increments `misses` and sets `last_missed`; on a hit just marks the entry
most-recently-used and clears `last_missed`.  Returns `self.lru[url]`
and the updated state. -/
def LRUShards.get_shard (openShard : String → α) (s : LRUShards α) (url : String) :
    Option α × LRUShards α :=
  let s1 : LRUShards α := { s with accesses := s.accesses + 1 }
  if s1.lru.containsKey url then
    let lru' := s1.lru.touch url
    (lru'.lookup url, { s1 with lru := lru', last_missed := false })
  else
    let itf := openShard url
    let lru' := s1.lru.insert url itf
    (lru'.lookup url,
      { s1 with lru := lru', misses := s1.misses + 1, last_missed := true })

/-- Fold a sequence of `get_shard` calls through the cache state. -/
def LRUShards.run (openShard : String → α) (s : LRUShards α) : List String → LRUShards α
  | [] => s
  | u :: us => LRUShards.run openShard (LRUShards.get_shard openShard s u).2 us

/-! ## Cache-health check -/

/-- Python `ShardListDataset.check_cache_misses`, as a function of the
enabled flag (the method rebinds itself to a no-op to disable further
checks) and the current `(accesses, misses)` statistics.  Returns
`(warning emitted, still enabled)`.  The Python float comparison
`misses / accesses > 0.3` is embedded as the exact rational comparison
`10 * misses > 3 * accesses` (`accesses > 100` holds in the branch, so
the division is defined). -/
def check_cache_misses (enabled : Bool) (accesses misses : Nat) : Bool × Bool :=
  if enabled && decide (100 < accesses) && decide (3 * accesses < 10 * misses) then
    (true, false)
  else (false, enabled)

/-- The advisory-warning condition on one `(accesses, misses)` pair. -/
def healthCond (p : Nat × Nat) : Bool :=
  decide (100 < p.1) && decide (3 * p.1 < 10 * p.2)

/-- Run the after-access health check over the sequence of statistics
observed after each access of an instance's lifetime; returns the
per-access "warning emitted" flags. -/
def runHealthChecks : Bool → List (Nat × Nat) → List Bool
  | _, [] => []
  | en, (a, m) :: rest =>
    let r := check_cache_misses en a m
    r.1 :: runHealthChecks r.2 rest

/-! ## ShardListSampler -/

/-- Swap the elements at positions `i` and `j` (`x[i], x[j] = x[j], x[i]`);
identity when either position is out of range (never the case in
`random.shuffle`). -/
def swapAt (l : List α) (i j : Nat) : List α :=
  match l[i]?, l[j]? with
  | some a, some b => (l.set i b).set j a
  | _, _ => l

/-- The Fisher-Yates loop of `random.shuffle`: for `i` from `len - 1`
down to `1`, draw `j = randbelow(i + 1)` and swap positions `i` and `j`.
The generator is abstract: `next g` yields a raw number and the next
state; `randbelow`'s bound is imposed by reduction mod `i + 1`.  The
argument `n` is the current swap position. -/
def shuffleGo (next : σ → Nat × σ) : Nat → List α → σ → List α × σ
  | 0, l, g => (l, g)
  | i + 1, l, g =>
    let r := next g
    let j := r.1 % (i + 2)
    shuffleGo next i (swapAt l (i + 1) j) r.2

/-- Python `random.shuffle(x)` with the threaded generator state. -/
def pyShuffle (next : σ → Nat × σ) (g : σ) (l : List α) : List α × σ :=
  match l.length with
  | 0 => (l, g)
  | n + 1 => shuffleGo next n l g

/-- The `self.ranges` built by `ShardListSampler.__init__`: per-shard
half-open `(start, end)` intervals in shard order. -/
def mkRanges_go (start : Nat) : List Nat → List (Nat × Nat)
  | [] => []
  | l :: ls => (start, start + l) :: mkRanges_go (start + l) ls

/-- `ShardListSampler.__init__`'s ranges for the given lengths. -/
def mkRanges (lengths : List Nat) : List (Nat × Nat) := mkRanges_go 0 lengths

/-- The per-shard part of `ShardListSampler.__iter__`: for each shard in
the (possibly shuffled) shard order, generate its index range, shuffle it
with the same generator, and emit the indices contiguously. -/
def ShardListSampler.iterBlocks (next : σ → Nat × σ) (ranges : List (Nat × Nat)) :
    List Nat → σ → List Nat
  | [], _ => []
  | s :: rest, g =>
    let r := ranges.getD s (0, 0)
    let p := pyShuffle next g (List.range' r.1 (r.2 - r.1))
    p.1 ++ ShardListSampler.iterBlocks next ranges rest p.2

/-- `ShardListSampler.__iter__` for one traversal: seed-derived generator
state `g0`, shard permutation (shuffled unless this is epoch 0 without
`shufflefirst`), then the per-shard blocks. -/
def ShardListSampler.iter (next : σ → Nat × σ) (g0 : σ) (ranges : List (Nat × Nat))
    (shuffleShards : Bool) : List Nat :=
  let sp0 := List.range ranges.length
  let sp := if shuffleShards then pyShuffle next g0 sp0 else (sp0, g0)
  ShardListSampler.iterBlocks next ranges sp.1 sp.2

/-- One full traversal of the sampler as a function of the constructor
inputs: the generator is seeded with `seed + 1289738273 * epoch`
(`mkRandom` models `random.Random`), and the shard order is shuffled
when `epoch > 0` or `shufflefirst`. -/
def ShardListSampler.output (mkRandom : Int → σ) (next : σ → Nat × σ)
    (lengths : List Nat) (seed : Int) (epoch : Nat) (shufflefirst : Bool) : List Nat :=
  ShardListSampler.iter next (mkRandom (seed + 1289738273 * epoch)) (mkRanges lengths)
    (decide (0 < epoch) || shufflefirst)

/-! ## default_localname -/

/-- Byte values never percent-escaped by `urllib.parse.quote`: ASCII
letters, digits, and `_ . - ~`. -/
def alwaysSafeByte (b : Nat) : Bool :=
  decide ((65 ≤ b ∧ b ≤ 90) ∨ (97 ≤ b ∧ b ≤ 122) ∨ (48 ≤ b ∧ b ≤ 57)) ||
    decide (b = 95 ∨ b = 46 ∨ b = 45 ∨ b = 126)

/-- The safe set of `quote(shard, safe="+-")`: the always-safe bytes plus
`'+'` (43) and `'-'` (45). -/
def quoteSafeByte (b : Nat) : Bool :=
  alwaysSafeByte b || decide (b = 43) || decide (b = 45)

/-- ASCII code of the hex digit `n` (`0`-`9`, then uppercase `A`-`F`),
as produced by `quote`'s `%XX` escapes. -/
def hexDigitCode (n : Nat) : Nat := if n < 10 then 48 + n else 55 + n

/-- `urllib.parse.quote(s, safe="+-")` over the UTF-8 bytes of the
identifier, producing the ASCII codes of the escaped filename: a safe
byte stands for itself, any other byte becomes `%XX`. -/
def quoteBytes : List Nat → List Nat
  | [] => []
  | b :: rest =>
    (if quoteSafeByte b then [b] else [37, hexDigitCode (b / 16), hexDigitCode (b % 16)])
      ++ quoteBytes rest

/-- `os.path.join(a, b)`: `b` if absolute, else `a` and `b` joined with a
separator unless `a` is empty or already ends in one. -/
def osPathJoin (a b : List Nat) : List Nat :=
  if b.head? = some 47 then b
  else if a = [] ∨ a.getLast? = some 47 then a ++ b
  else a ++ 47 :: b

/-- Python `default_localname(dldir)`'s inner function: the local path of
a shard identifier, `os.path.join(dldir, quote(shard, safe="+-"))`,
over UTF-8 byte lists (UTF-8 encoding of distinct strings is distinct). -/
def default_localname (dldir : List Nat) (shard : List Nat) : List Nat :=
  osPathJoin dldir (quoteBytes shard)

/-! ## Lemmas: cumulative table and upper-bound search -/

lemma sum_take_mono (l : List Nat) {a b : Nat} (h : a ≤ b) :
    (l.take a).sum ≤ (l.take b).sum := by
  have h1 : l.take a = (l.take b).take a := by
    rw [List.take_take, Nat.min_eq_left h]
  calc (l.take a).sum = ((l.take b).take a).sum := by rw [h1]
    _ ≤ ((l.take b).take a).sum + ((l.take b).drop a).sum := Nat.le_add_right _ _
    _ = (l.take b).sum := by rw [← List.sum_append, List.take_append_drop]

lemma searchsorted_cumsum_go (l : List Nat) :
    ∀ (acc : Nat) (v : Int), (acc : Int) ≤ v → v < (acc : Int) + (l.sum : Int) →
      searchsorted_right (cumsum_go acc l) v < l.length ∧
      (acc : Int) + ((l.take (searchsorted_right (cumsum_go acc l) v)).sum : Int) ≤ v ∧
      v < (acc : Int) + ((l.take (searchsorted_right (cumsum_go acc l) v + 1)).sum : Int) := by
  induction l with
  | nil =>
    intro acc v hlo hhi
    simp only [List.sum_nil, Nat.cast_zero, add_zero] at hhi
    exact absurd (lt_of_le_of_lt hlo hhi) (lt_irrefl _)
  | cons x xs ih =>
    intro acc v hlo hhi
    simp only [cumsum_go, searchsorted_right]
    by_cases hx : v < ((acc + x : Nat) : Int)
    · simp only [if_pos hx]
      refine ⟨Nat.succ_pos _, ?_, ?_⟩
      · simpa using hlo
      · simpa using hx
    · simp only [if_neg hx]
      have hlo' : ((acc + x : Nat) : Int) ≤ v := le_of_not_lt hx
      have hhi' : v < ((acc + x : Nat) : Int) + (xs.sum : Int) := by
        simp only [List.sum_cons] at hhi
        push_cast at hhi ⊢
        linarith
      obtain ⟨h1, h2, h3⟩ := ih (acc + x) v hlo' hhi'
      refine ⟨Nat.succ_lt_succ h1, ?_, ?_⟩
      · simpa [List.take_succ_cons, add_assoc] using h2
      · simpa [List.take_succ_cons, add_assoc] using h3

lemma cumsum_go_getD (l : List Nat) :
    ∀ (acc k : Nat), k < l.length →
      (cumsum_go acc l).getD k 0 = acc + (l.take (k + 1)).sum := by
  induction l with
  | nil => intro acc k hk; exact absurd hk (Nat.not_lt_zero _)
  | cons x xs ih =>
    intro acc k hk
    cases k with
    | zero => simp [cumsum_go]
    | succ k' =>
      have hk' : k' < xs.length := Nat.lt_of_succ_lt_succ hk
      simp only [cumsum_go, List.getD_cons_succ, List.take_succ_cons, List.sum_cons]
      rw [ih (acc + x) k' hk']
      omega

lemma getD_eq_get_of_lt (l : List Nat) {j : Nat} (h : j < l.length) :
    l.getD j 0 = l[j] := by
  rw [List.getD_eq_getElem?_getD, List.getElem?_eq_getElem h]
  rfl

/-! ## Claim C1 -/

/-- C1: for every shard-length list (non-negative counts) and every
global index `0 ≤ i < total`, `get_shard` resolves to the unique shard
whose half-open cumulative range contains `i` (upper-bound search over
the prefix sums), the local index equals `i` minus the previous shard's
cumulative sum (`i` itself for the first shard) and lies in
`[0, shard.sample_count)`; with shard lengths `[5, 0, 3]`, indices 0-4
map to shard 0 locals 0-4 and indices 5-7 map to shard 2 locals 0-2, the
zero-length shard receiving no index. -/
theorem C1_index_resolution (lengths : List Nat) (i : Nat) (h : i < lengths.sum) :
    (ShardListDataset.get_shard_idx lengths (i : Int)).1 < lengths.length ∧
    (lengths.take (ShardListDataset.get_shard_idx lengths (i : Int)).1).sum ≤ i ∧
    i < (lengths.take ((ShardListDataset.get_shard_idx lengths (i : Int)).1 + 1)).sum ∧
    (∀ j : Nat, (lengths.take j).sum ≤ i → i < (lengths.take (j + 1)).sum →
      j = (ShardListDataset.get_shard_idx lengths (i : Int)).1) ∧
    (ShardListDataset.get_shard_idx lengths (i : Int)).2
      = (i : Int) - ((lengths.take (ShardListDataset.get_shard_idx lengths (i : Int)).1).sum : Int) ∧
    0 ≤ (ShardListDataset.get_shard_idx lengths (i : Int)).2 ∧
    (ShardListDataset.get_shard_idx lengths (i : Int)).2
      < (lengths.getD (ShardListDataset.get_shard_idx lengths (i : Int)).1 0 : Int) ∧
    (List.range 8).map (fun k => ShardListDataset.get_shard_idx [5, 0, 3] (k : Int))
      = [(0, 0), (0, 1), (0, 2), (0, 3), (0, 4), (2, 0), (2, 1), (2, 2)] := by
  have hlo : ((0 : Nat) : Int) ≤ (i : Int) := by positivity
  have hhi : (i : Int) < ((0 : Nat) : Int) + (lengths.sum : Int) := by
    simpa using (by exact_mod_cast h : (i : Int) < (lengths.sum : Int))
  obtain ⟨hj, hle, hlt⟩ := searchsorted_cumsum_go lengths 0 (i : Int) hlo hhi
  set j := searchsorted_right (cumsum_go 0 lengths) (i : Int) with hjdef
  have hjeq : (ShardListDataset.get_shard_idx lengths (i : Int)).1 = j := rfl
  have hle' : (lengths.take j).sum ≤ i := by
    have h0 := hle
    rw [Nat.cast_zero, zero_add] at h0
    exact_mod_cast h0
  have hlt' : i < (lengths.take (j + 1)).sum := by
    have h0 := hlt
    rw [Nat.cast_zero, zero_add] at h0
    exact_mod_cast h0
  have hsnd : (ShardListDataset.get_shard_idx lengths (i : Int)).2
      = (i : Int) - ((lengths.take j).sum : Int) := by
    show (if j = 0 then (i : Int)
        else (i : Int) - ((cumsum lengths).getD (j - 1) 0 : Int)) = _
    by_cases hz : j = 0
    · simp [hz]
    · have hj' : j - 1 < lengths.length := by omega
      simp only [if_neg hz]
      rw [show cumsum lengths = cumsum_go 0 lengths from rfl,
        cumsum_go_getD lengths 0 (j - 1) hj', show j - 1 + 1 = j by omega]
      simp
  have huniq : ∀ k : Nat, (lengths.take k).sum ≤ i → i < (lengths.take (k + 1)).sum → j = k := by
    intro k hk1 hk2
    rcases Nat.lt_trichotomy j k with hlt2 | heq | hgt
    · have : (lengths.take (j + 1)).sum ≤ (lengths.take k).sum :=
        sum_take_mono lengths (Nat.succ_le_of_lt hlt2)
      omega
    · exact heq
    · have : (lengths.take (k + 1)).sum ≤ (lengths.take j).sum :=
        sum_take_mono lengths (Nat.succ_le_of_lt hgt)
      omega
  have hsum_succ : (lengths.take (j + 1)).sum = (lengths.take j).sum + lengths[j] :=
    List.sum_take_succ lengths j hj
  have hgetd : lengths.getD j 0 = lengths[j] := getD_eq_get_of_lt lengths hj
  refine ⟨hjeq ▸ hj, hjeq ▸ hle', hjeq ▸ hlt', ?_, hjeq ▸ hsnd, ?_, ?_, by decide⟩
  · intro k hk1 hk2
    rw [hjeq]
    exact (huniq k hk1 hk2).symm
  · rw [hsnd]
    have : ((lengths.take j).sum : Int) ≤ (i : Int) := by exact_mod_cast hle'
    omega
  · rw [hjeq, hsnd, hgetd]
    have h2 : (i : Int) < ((lengths.take j).sum : Int) + (lengths[j] : Int) := by
      exact_mod_cast hsum_succ ▸ hlt'
    omega

/-- Witness for C1 at lengths `[5, 0, 3]`, index 6. -/
theorem C1_witness :
    (ShardListDataset.get_shard_idx [5, 0, 3] ((6 : Nat) : Int)).1 < ([5, 0, 3] : List Nat).length :=
  (C1_index_resolution [5, 0, 3] 6 (by decide)).1

/-! ## Lemmas: splitname characterization -/

lemma afterLastSlash_of_no_slash : ∀ l : List Char, '/' ∉ l → afterLastSlash l = l := by
  intro l h
  induction l with
  | nil => rfl
  | cons c cs ih =>
    have hc : c ≠ '/' := fun hc => h (hc ▸ List.mem_cons_self c cs)
    have hcs : '/' ∉ cs := fun hm => h (List.mem_cons_of_mem c hm)
    simp only [afterLastSlash, if_neg hcs, if_neg hc]

lemma mem_afterFirstSlash : ∀ l : List Char, ∀ c, c ∈ afterFirstSlash l → c ∈ l := by
  intro l
  induction l with
  | nil => intro c h; exact absurd h (List.not_mem_nil c)
  | cons x xs ih =>
    intro c h
    by_cases hx : x = '/'
    · simp only [afterFirstSlash, if_pos hx] at h
      exact List.mem_cons_of_mem x h
    · simp only [afterFirstSlash, if_neg hx] at h
      exact List.mem_cons_of_mem x (ih c h)

lemma afterFirstSlash_append : ∀ a b : List Char, '/' ∉ a →
    afterFirstSlash (a ++ b) = afterFirstSlash b := by
  intro a
  induction a with
  | nil => intro b _; rfl
  | cons x xs ih =>
    intro b h
    have hx : x ≠ '/' := fun hx => h (hx ▸ List.mem_cons_self x xs)
    have hxs : '/' ∉ xs := fun hm => h (List.mem_cons_of_mem x hm)
    simp only [List.cons_append, afterFirstSlash, if_neg hx]
    exact ih b hxs

/-- `splitnameCore` fails exactly on names without a `'.'` (the guard
`"." in fname` and the regex match agree). -/
lemma splitnameCore_eq_none_iff : ∀ s : List Char, splitnameCore s = none ↔ '.' ∉ s := by
  intro s
  induction s with
  | nil => simp [splitnameCore]
  | cons c cs ih =>
    rcases h0 : splitnameCore cs with _ | p
    · have hdot : '.' ∉ cs := ih.mp h0
      by_cases hc : c = '/'
      · simp [splitnameCore, hc, h0, hdot]
      · by_cases hd : c = '.'
        · simp [splitnameCore, hc, hd, h0]
        · simp [splitnameCore, hc, hd, h0, hdot]
          intro h'
          exact absurd h'.symm hd
    · have hdot : '.' ∈ cs := by
        by_contra hn
        rw [← ih] at hn
        rw [hn] at h0
        exact Option.noConfusion h0
      by_cases hc : c = '/'
      · simp [splitnameCore, hc, h0, hdot]
      · by_cases hd : c = '.'
        · simp [splitnameCore, hc, hd, h0, hdot]
          by_cases hk : '/' ∈ p.1 <;> simp [hk]
        · simp [splitnameCore, hc, hd, h0, hdot]

/-- Characterization of a successful `splitnameCore` split: the name is
`key ++ ext`, the extension starts with `'.'`, the kept part of the split
segment is dot-free (no `'.'` after the last `'/'` of the key), and every
segment after the split segment is dot-free (no `'.'` after the first
`'/'` of the extension).  This pins the split at the first `'.'` of the
last dot-containing `/`-separated segment. -/
lemma splitnameCore_some_spec : ∀ (s : List Char) (p : List Char × List Char),
    splitnameCore s = some p →
    s = p.1 ++ p.2 ∧ p.2.head? = some '.' ∧
      '.' ∉ afterLastSlash p.1 ∧ '.' ∉ afterFirstSlash p.2 := by
  intro s
  induction s with
  | nil => intro p h; exact Option.noConfusion h
  | cons c cs ih =>
    intro p h
    rcases h0 : splitnameCore cs with _ | q
    · -- tail has no split: only the `c = '.'` branch can produce one
      have hnd : '.' ∉ cs := (splitnameCore_eq_none_iff cs).mp h0
      by_cases hc : c = '/'
      · rw [hc] at h
        simp only [splitnameCore, if_pos rfl, h0, Option.map_none'] at h
        exact Option.noConfusion h
      · simp only [splitnameCore, if_neg hc, h0] at h
        by_cases hd : c = '.'
        · rw [if_pos hd] at h
          have hp : p = ([], c :: cs) := (Option.some.inj h).symm
          subst hp
          rw [hd]
          refine ⟨rfl, rfl, by simp [afterLastSlash], ?_⟩
          show '.' ∉ afterFirstSlash ('.' :: cs)
          simp only [afterFirstSlash, if_neg (by decide : ¬('.' : Char) = '/')]
          exact fun hm => hnd (mem_afterFirstSlash cs '.' hm)
        · rw [if_neg hd] at h
          exact Option.noConfusion h
    · obtain ⟨hs, hh, hals, hafs⟩ := ih q h0
      by_cases hc : c = '/'
      · rw [hc] at h ⊢
        simp only [splitnameCore, if_pos rfl, h0, Option.map_some'] at h
        have hp : p = ('/' :: q.1, q.2) := (Option.some.inj h).symm
        subst hp
        refine ⟨by rw [hs]; rfl, hh, ?_, hafs⟩
        show '.' ∉ afterLastSlash ('/' :: q.1)
        by_cases hsl : '/' ∈ q.1
        · simpa [afterLastSlash, hsl] using hals
        · rw [afterLastSlash_of_no_slash q.1 hsl] at hals
          simpa [afterLastSlash, hsl] using hals
      · simp only [splitnameCore, if_neg hc, h0] at h
        by_cases hsl : '/' ∈ q.1
        · rw [if_pos hsl] at h
          have hp : p = (c :: q.1, q.2) := (Option.some.inj h).symm
          subst hp
          refine ⟨by rw [hs]; rfl, hh, ?_, hafs⟩
          simpa [afterLastSlash, hsl] using hals
        · rw [if_neg hsl] at h
          by_cases hd : c = '.'
          · rw [if_pos hd] at h
            have hp : p = ([], c :: cs) := (Option.some.inj h).symm
            subst hp
            rw [hd]
            refine ⟨rfl, rfl, by simp [afterLastSlash], ?_⟩
            show '.' ∉ afterFirstSlash ('.' :: cs)
            simp only [afterFirstSlash, if_neg (by decide : ¬('.' : Char) = '/')]
            rw [hs, afterFirstSlash_append q.1 q.2 hsl]
            exact hafs
          · rw [if_neg hd] at h
            have hp : p = (c :: q.1, q.2) := (Option.some.inj h).symm
            subst hp
            refine ⟨by rw [hs]; rfl, hh, ?_, hafs⟩
            show '.' ∉ afterLastSlash (c :: q.1)
            rw [afterLastSlash_of_no_slash q.1 hsl] at hals
            simp only [afterLastSlash, if_neg hsl, if_neg hc]
            simp only [List.mem_cons]
            rintro (h1 | h2)
            · exact hd h1.symm
            · exact hals h2

/-! ## Lemmas: group_by_key as run-grouping -/

/-- The `group_by_key` loop restricted to the kept `(index, key)` pairs
(skipped names have no influence beyond their index). -/
def goKeys : List (Nat × List Char) → Option (List Char) → List Nat →
    List (List Nat) → List (List Nat)
  | [], _, current, groups => if current.isEmpty then groups else groups ++ [current]
  | (i, key) :: rest, last_key, current, groups =>
    if some key = last_key then goKeys rest last_key (current ++ [i]) groups
    else goKeys rest (some key) [i] (if current.isEmpty then groups else groups ++ [current])

lemma group_by_key_go_eq_goKeys : ∀ (names : List String) (i : Nat)
    (last : Option (List Char)) (cur : List Nat) (gr : List (List Nat)),
    group_by_key_go names i last cur gr = goKeys (keptKeysFrom i names) last cur gr := by
  intro names
  induction names with
  | nil => intro i last cur gr; rfl
  | cons n rest ih =>
    intro i last cur gr
    rcases h0 : splitnameCore n.toList with _ | p
    · have hnd : '.' ∉ n.toList := (splitnameCore_eq_none_iff n.toList).mp h0
      simp only [group_by_key_go, h0, keptKeysFrom, if_neg hnd]
      exact ih (i + 1) last cur gr
    · have hd : '.' ∈ n.toList := by
        by_contra hn
        rw [← splitnameCore_eq_none_iff] at hn
        rw [hn] at h0
        exact Option.noConfusion h0
      have hkey : nameKey n = p.1 := by
        show ((splitnameCore n.toList).map Prod.fst).getD [] = p.1
        rw [h0]
        rfl
      simp only [group_by_key_go, h0, keptKeysFrom, if_pos hd, hkey, goKeys]
      by_cases hlast : some p.1 = last
      · simp only [if_pos hlast]
        exact ih (i + 1) last (cur ++ [i]) gr
      · simp only [if_neg hlast]
        exact ih (i + 1) (some p.1) [i] _

lemma goKeys_accum : ∀ (l : List (Nat × List Char)) (last : Option (List Char))
    (cur : List Nat) (gr : List (List Nat)),
    goKeys l last cur gr = gr ++ goKeys l last cur [] := by
  intro l
  induction l with
  | nil =>
    intro last cur gr
    by_cases hcur : cur.isEmpty
    · simp [goKeys, hcur]
    · simp [goKeys, hcur]
  | cons p rest ih =>
    intro last cur gr
    obtain ⟨i, key⟩ := p
    by_cases hlast : some key = last
    · simp only [goKeys, if_pos hlast]
      exact ih last (cur ++ [i]) gr
    · simp only [goKeys, if_neg hlast]
      by_cases hcur : cur.isEmpty
      · simp only [if_pos hcur]
        exact ih (some key) [i] gr
      · simp only [if_neg hcur, List.nil_append]
        rw [ih (some key) [i] (gr ++ [cur]), ih (some key) [i] [cur]]
        simp [List.append_assoc]

lemma goKeys_run : ∀ (l : List (Nat × List Char)) (k : List Char) (cur : List Nat),
    cur ≠ [] →
    goKeys l (some k) cur [] =
      (cur ++ (l.takeWhile (fun p => decide (p.2 = k))).map Prod.fst)
        :: runGroups (l.dropWhile (fun p => decide (p.2 = k))) := by
  intro l
  induction l with
  | nil =>
    intro k cur hcur
    simp [goKeys, List.isEmpty_iff, hcur, runGroups]
  | cons p rest ih =>
    intro k cur hcur
    obtain ⟨j, k'⟩ := p
    by_cases hk : k' = k
    · subst hk
      simp only [goKeys, if_pos rfl, List.takeWhile_cons, List.dropWhile_cons]
      rw [ih k' (cur ++ [j]) (by simp)]
      simp [List.append_assoc]
    · have hne : ¬(some k' = some k) := by simpa using hk
      have hdk : decide (k' = k) = false := decide_eq_false hk
      simp only [goKeys, if_neg hne, List.takeWhile_cons, List.dropWhile_cons, hdk,
        Bool.false_eq_true, if_false, List.isEmpty_iff, hcur, List.nil_append]
      rw [goKeys_accum rest (some k') [j] [cur], ih k' [j] (by simp)]
      simp [runGroups]

lemma goKeys_eq_runGroups : ∀ l : List (Nat × List Char),
    goKeys l none [] [] = runGroups l := by
  intro l
  cases l with
  | nil => simp [goKeys, runGroups]
  | cons p rest =>
    obtain ⟨i, k⟩ := p
    have h1 : goKeys ((i, k) :: rest) none [] [] = goKeys rest (some k) [i] [] := by
      simp [goKeys]
    rw [h1, goKeys_run rest k [i] (by simp)]
    simp [runGroups]

/-- `group_by_key` computes exactly one group per maximal run of
consecutive kept names sharing the same split key. -/
lemma group_by_key_eq_runGroups (names : List String) :
    group_by_key names = runGroups (keptKeysFrom 0 names) := by
  rw [group_by_key, group_by_key_go_eq_goKeys names 0 none [] [], goKeys_eq_runGroups]

/-! ## The newline-aware grouping pass -/

/-- The key of a member name under the full regex semantics, `[]` for a
name on which the match fails. -/
def nameKeyPy (n : String) : List Char := ((splitnamePy n.toList).map Prod.fst).getD []

/-- Reference description from the claim: the remaining member names
(those containing a `'.'`), enumerated from `i`, each paired with its
full-semantics split key. -/
def keptKeysPyFrom (i : Nat) : List String → List (Nat × List Char)
  | [] => []
  | n :: rest =>
    if '.' ∈ n.toList then (i, nameKeyPy n) :: keptKeysPyFrom (i + 1) rest
    else keptKeysPyFrom (i + 1) rest

/-- Loop body of Python `group_by_key` with the regex's newline behavior
made explicit: a name without a `'.'` is skipped after a printed
warning; on a kept name whose regex match fails (an interior newline),
`splitname` raises `AttributeError` and the whole grouping pass dies —
modelled as `none`. -/
def group_by_key_py_go : List String → Nat → Option (List Char) → List Nat →
    List (List Nat) → Option (List (List Nat))
  | [], _, _, current, groups =>
    some (if current.isEmpty then groups else groups ++ [current])
  | fname :: rest, i, last_key, current, groups =>
    if '.' ∈ fname.toList then
      match splitnamePy fname.toList with
      | none => none
      | some (key, _) =>
        if some key = last_key then
          group_by_key_py_go rest (i + 1) last_key (current ++ [i]) groups
        else
          group_by_key_py_go rest (i + 1) (some key) [i]
            (if current.isEmpty then groups else groups ++ [current])
    else group_by_key_py_go rest (i + 1) last_key current groups

/-- Python `group_by_key` under the full regex semantics: `none` models
the `AttributeError` escaping the pass. -/
def group_by_key_py (names : List String) : Option (List (List Nat)) :=
  group_by_key_py_go names 0 none [] []

lemma mem_stripTrailingNewline : ∀ (s : List Char) (c : Char),
    c ∈ stripTrailingNewline s → c ∈ s := by
  intro s
  induction s with
  | nil => intro c h; exact absurd h (List.not_mem_nil c)
  | cons x xs ih =>
    intro c h
    cases xs with
    | nil =>
      by_cases hx : x = '\n'
      · simp [stripTrailingNewline, hx] at h
      · simp only [stripTrailingNewline, if_neg hx] at h
        exact h
    | cons y ys =>
      simp only [stripTrailingNewline, List.mem_cons] at h ⊢
      rcases h with h1 | h2
      · exact Or.inl h1
      · exact Or.inr (List.mem_cons.mp (ih c h2))

lemma mem_stripTrailingNewline_of_ne : ∀ (s : List Char) (c : Char), c ≠ '\n' →
    c ∈ s → c ∈ stripTrailingNewline s := by
  intro s
  induction s with
  | nil => intro c _ h; exact absurd h (List.not_mem_nil c)
  | cons x xs ih =>
    intro c hc h
    cases xs with
    | nil =>
      have hcx : c = x := by simpa using h
      subst hcx
      simp [stripTrailingNewline, hc]
    | cons y ys =>
      simp only [stripTrailingNewline, List.mem_cons] at h ⊢
      rcases h with h1 | h2
      · exact Or.inl h1
      · exact Or.inr (ih c hc (List.mem_cons.mpr h2))

/-- The regex fails exactly on names that, after dropping one trailing
newline, still contain a newline or contain no `'.'`. -/
lemma splitnamePy_eq_none_iff (s : List Char) :
    splitnamePy s = none ↔
      ('\n' ∈ stripTrailingNewline s ∨ '.' ∉ stripTrailingNewline s) := by
  unfold splitnamePy
  by_cases h : '\n' ∈ stripTrailingNewline s
  · simp [h]
  · simp [h, splitnameCore_eq_none_iff]

/-- A successful full-semantics split cuts the name minus its trailing
newline at the first `'.'` of the last dot-containing path segment. -/
lemma splitnamePy_some_spec (s k e : List Char) (h : splitnamePy s = some (k, e)) :
    stripTrailingNewline s = k ++ e ∧ e.head? = some '.' ∧
      '.' ∉ afterLastSlash k ∧ '.' ∉ afterFirstSlash e := by
  unfold splitnamePy at h
  by_cases hn : '\n' ∈ stripTrailingNewline s
  · rw [if_pos hn] at h; exact Option.noConfusion h
  · rw [if_neg hn] at h
    exact splitnameCore_some_spec (stripTrailingNewline s) (k, e) h

lemma group_by_key_py_go_eq_goKeys : ∀ (names : List String) (i : Nat)
    (last : Option (List Char)) (cur : List Nat) (gr : List (List Nat)),
    (∀ n ∈ names, '.' ∈ n.toList → '\n' ∉ stripTrailingNewline n.toList) →
    group_by_key_py_go names i last cur gr
      = some (goKeys (keptKeysPyFrom i names) last cur gr) := by
  intro names
  induction names with
  | nil => intro i last cur gr _; rfl
  | cons n rest ih =>
    intro i last cur gr hok
    have hrest : ∀ m ∈ rest, '.' ∈ m.toList → '\n' ∉ stripTrailingNewline m.toList :=
      fun m hm => hok m (List.mem_cons_of_mem n hm)
    by_cases hd : '.' ∈ n.toList
    · have hnl : '\n' ∉ stripTrailingNewline n.toList :=
        hok n (List.mem_cons_self n rest) hd
      have hds : '.' ∈ stripTrailingNewline n.toList :=
        mem_stripTrailingNewline_of_ne n.toList '.' (by decide) hd
      rcases h0 : splitnamePy n.toList with _ | p
      · exfalso
        rcases (splitnamePy_eq_none_iff n.toList).mp h0 with h1 | h2
        · exact hnl h1
        · exact h2 hds
      · have hkey : nameKeyPy n = p.1 := by
          show ((splitnamePy n.toList).map Prod.fst).getD [] = p.1
          rw [h0]; rfl
        simp only [group_by_key_py_go, if_pos hd, h0, keptKeysPyFrom, hkey, goKeys]
        by_cases hlast : some p.1 = last
        · simp only [if_pos hlast]
          exact ih (i + 1) last (cur ++ [i]) gr hrest
        · simp only [if_neg hlast]
          exact ih (i + 1) (some p.1) [i] _ hrest
    · simp only [group_by_key_py_go, if_neg hd, keptKeysPyFrom]
      exact ih (i + 1) last cur gr hrest

lemma group_by_key_py_go_fatal : ∀ (names : List String) (i : Nat)
    (last : Option (List Char)) (cur : List Nat) (gr : List (List Nat)) (n : String),
    n ∈ names → '.' ∈ n.toList → '\n' ∈ stripTrailingNewline n.toList →
    group_by_key_py_go names i last cur gr = none := by
  intro names
  induction names with
  | nil => intro i last cur gr n hn; exact absurd hn (List.not_mem_nil n)
  | cons m rest ih =>
    intro i last cur gr n hn hdot hnl
    rcases List.mem_cons.mp hn with h1 | h2
    · subst h1
      have h0 : splitnamePy n.toList = none :=
        (splitnamePy_eq_none_iff n.toList).mpr (Or.inl hnl)
      simp only [group_by_key_py_go, if_pos hdot, h0]
    · by_cases hd : '.' ∈ m.toList
      · rcases h0 : splitnamePy m.toList with _ | p
        · simp only [group_by_key_py_go, if_pos hd, h0]
        · simp only [group_by_key_py_go, if_pos hd, h0]
          by_cases hlast : some p.1 = last
          · simp only [if_pos hlast]
            exact ih (i + 1) last (cur ++ [i]) gr n h2 hdot hnl
          · simp only [if_neg hlast]
            exact ih (i + 1) (some p.1) [i] _ n h2 hdot hnl
      · simp only [group_by_key_py_go, if_neg hd]
        exact ih (i + 1) last cur gr n h2 hdot hnl

/-- When no kept name has an interior newline, the pass succeeds and
computes exactly one group per maximal run of equal split keys. -/
lemma group_by_key_py_eq_runGroups (names : List String)
    (hok : ∀ n ∈ names, '.' ∈ n.toList → '\n' ∉ stripTrailingNewline n.toList) :
    group_by_key_py names = some (runGroups (keptKeysPyFrom 0 names)) := by
  rw [group_by_key_py, group_by_key_py_go_eq_goKeys names 0 none [] [] hok,
    goKeys_eq_runGroups]

/-! ## Claim C2 -/

/-- C2 as stated is refuted on the member name `"a.b/c"`: it contains a
`'.'` so the grouping pass keeps it (one group), but no `'.'` follows its
last path separator, so the claimed split rule is undefined there while
the code splits at the first `'.'` of the name (`("a", ".b/c")`). -/
theorem C2_counterexample :
    splitname_claimed "a.b/c".toList = none ∧
    splitnamePy "a.b/c".toList = some ("a".toList, ".b/c".toList) ∧
    group_by_key_py ["a.b/c"] = some [[0]] := by decide

/-- C2 (amended): for every list of archive member names, `group_by_key`
excludes each name containing no `'.'` non-fatally; a kept name on which
the regex fails to match — one still containing a newline after at most
one trailing newline is dropped — is fatal to the whole pass
(`AttributeError`), not skipped; when no kept name has such an interior
newline the pass succeeds and forms one group per maximal run of
consecutive kept names sharing the same key, where each kept name, with
one trailing newline dropped, is split into `(key, extension)` at the
first `'.'` of its last dot-containing `/`-separated segment — the first
`'.'` following the last path separator whenever the final segment
contains one; for `["a.jpg","a.txt","b.jpg","c.jpg","c.txt"]`,
`length()` is 3. -/
theorem C2_grouping :
    (∀ names : List String,
      (∀ n ∈ names, '.' ∈ n.toList → '\n' ∉ stripTrailingNewline n.toList) →
      group_by_key_py names = some (runGroups (keptKeysPyFrom 0 names))) ∧
    (∀ (names : List String) (n : String), n ∈ names → '.' ∈ n.toList →
      '\n' ∈ stripTrailingNewline n.toList → group_by_key_py names = none) ∧
    (∀ s : List Char, splitnamePy s = none ↔
      ('\n' ∈ stripTrailingNewline s ∨ '.' ∉ stripTrailingNewline s)) ∧
    (∀ s k e : List Char, splitnamePy s = some (k, e) →
      stripTrailingNewline s = k ++ e ∧ e.head? = some '.' ∧
        '.' ∉ afterLastSlash k ∧ '.' ∉ afterFirstSlash e) ∧
    group_by_key_py ["a.jpg", "a.txt", "b.jpg", "c.jpg", "c.txt"]
      = some [[0, 1], [2], [3, 4]] :=
  ⟨group_by_key_py_eq_runGroups,
   fun names n hn hd hnl => group_by_key_py_go_fatal names 0 none [] [] n hn hd hnl,
   splitnamePy_eq_none_iff,
   splitnamePy_some_spec,
   by decide⟩

/-- Witness for C2: the grouping pass run on concrete newline-free
names, discharging the no-interior-newline hypothesis. -/
theorem C2_witness :
    group_by_key_py ["x.a", "x.b", "y.a"]
      = some (runGroups (keptKeysPyFrom 0 ["x.a", "x.b", "y.a"])) :=
  C2_grouping.1 ["x.a", "x.b", "y.a"] (by decide)

/-! ## Lemmas: groups produced by group_by_key are well-keyed -/

lemma keptKeysFrom_idx_le : ∀ (names : List String) (i0 : Nat) (q : Nat × List Char),
    q ∈ keptKeysFrom i0 names → i0 ≤ q.1 := by
  intro names
  induction names with
  | nil => intro i0 q h; exact absurd h (List.not_mem_nil q)
  | cons n rest ih =>
    intro i0 q h
    by_cases hd : '.' ∈ n.toList
    · simp only [keptKeysFrom, if_pos hd, List.mem_cons] at h
      rcases h with h1 | h2
      · subst h1; exact Nat.le_refl _
      · exact Nat.le_of_succ_le (ih (i0 + 1) q h2)
    · simp only [keptKeysFrom, if_neg hd] at h
      exact Nat.le_of_succ_le (ih (i0 + 1) q h)

lemma keptKeysFrom_mem : ∀ (names : List String) (i0 : Nat) (q : Nat × List Char),
    q ∈ keptKeysFrom i0 names →
    ∃ fname ext, names[q.1 - i0]? = some fname ∧
      splitnameCore fname.toList = some (q.2, ext) := by
  intro names
  induction names with
  | nil => intro i0 q h; exact absurd h (List.not_mem_nil q)
  | cons n rest ih =>
    intro i0 q h
    by_cases hd : '.' ∈ n.toList
    · simp only [keptKeysFrom, if_pos hd, List.mem_cons] at h
      rcases h with h1 | h2
      · subst h1
        rcases h0 : splitnameCore n.toList with _ | p
        · exact absurd ((splitnameCore_eq_none_iff n.toList).mp h0) (by simpa using hd)
        · refine ⟨n, p.2, by simp, ?_⟩
          have hkey : nameKey n = p.1 := by
            show ((splitnameCore n.toList).map Prod.fst).getD [] = p.1
            rw [h0]; rfl
          simp only [hkey, h0]
      · obtain ⟨fname, ext, h3, h4⟩ := ih (i0 + 1) q h2
        have hle : i0 + 1 ≤ q.1 := keptKeysFrom_idx_le rest (i0 + 1) q h2
        refine ⟨fname, ext, ?_, h4⟩
        have heq : q.1 - i0 = (q.1 - (i0 + 1)) + 1 := by omega
        rw [heq]
        simpa using h3
    · simp only [keptKeysFrom, if_neg hd] at h
      obtain ⟨fname, ext, h3, h4⟩ := ih (i0 + 1) q h
      have hle : i0 + 1 ≤ q.1 := keptKeysFrom_idx_le rest (i0 + 1) q h
      refine ⟨fname, ext, ?_, h4⟩
      have heq : q.1 - i0 = (q.1 - (i0 + 1)) + 1 := by omega
      rw [heq]
      simpa using h3

lemma runGroups_mem : ∀ (l : List (Nat × List Char)) (g : List Nat), g ∈ runGroups l →
    ∃ K, g ≠ [] ∧ ∀ idx ∈ g, (idx, K) ∈ l := by
  suffices H : ∀ (n : Nat) (l : List (Nat × List Char)), l.length = n →
      ∀ g ∈ runGroups l, ∃ K, g ≠ [] ∧ ∀ idx ∈ g, (idx, K) ∈ l by
    intro l g h
    exact H l.length l rfl g h
  intro n
  induction n using Nat.strong_induction_on with
  | _ n ih =>
    intro l hn
    cases l with
    | nil =>
      intro g h
      rw [show runGroups [] = [] from by simp [runGroups]] at h
      exact absurd h (List.not_mem_nil g)
    | cons p rest =>
      obtain ⟨i, k⟩ := p
      intro g h
      rw [show runGroups ((i, k) :: rest) =
          (i :: (rest.takeWhile (fun p => decide (p.2 = k))).map Prod.fst)
            :: runGroups (rest.dropWhile (fun p => decide (p.2 = k))) from by
        simp [runGroups]] at h
      rcases List.mem_cons.mp h with h1 | h2
      · refine ⟨k, by simp [h1], ?_⟩
        intro idx hidx
        rw [h1] at hidx
        rcases List.mem_cons.mp hidx with h3 | h4
        · subst h3; exact List.mem_cons_self _ _
        · obtain ⟨q, hq1, hq2⟩ := List.mem_map.mp h4
          have hqk : q.2 = k := of_decide_eq_true
            (@List.mem_takeWhile_imp _ (fun p => decide (p.2 = k)) rest q hq1)
          have hmem : q ∈ rest := (List.takeWhile_sublist _).subset hq1
          have hqeq : q = (idx, k) := by
            obtain ⟨q1, q2⟩ := q
            simp only at hq2 hqk
            rw [hq2, hqk]
          rw [← hqeq]
          exact List.mem_cons_of_mem _ hmem
      · have hlen : (rest.dropWhile (fun p => decide (p.2 = k))).length < n := by
          rw [← hn]
          simp only [List.length_cons]
          exact Nat.lt_succ_of_le (List.dropWhile_sublist _).length_le
        obtain ⟨K, hne, hall⟩ := ih _ hlen _ rfl g h2
        refine ⟨K, hne, ?_⟩
        intro idx hidx
        exact List.mem_cons_of_mem _ ((List.dropWhile_sublist _).subset (hall idx hidx))

/-- Every group produced by `group_by_key` is nonempty and all its
member indices point to names with the same split key. -/
lemma group_by_key_good (names : List String) (g : List Nat) (h : g ∈ group_by_key names) :
    ∃ K, g ≠ [] ∧ ∀ idx ∈ g, ∃ fname ext, names[idx]? = some fname ∧
      splitnameCore fname.toList = some (K, ext) := by
  rw [group_by_key_eq_runGroups] at h
  obtain ⟨K, hne, hall⟩ := runGroups_mem _ g h
  refine ⟨K, hne, ?_⟩
  intro idx hidx
  obtain ⟨fname, ext, h1, h2⟩ := keptKeysFrom_mem names 0 (idx, K) (hall idx hidx)
  exact ⟨fname, ext, by simpa using h1, h2⟩

/-- The same-key assertion in the sample-assembly loop never fires on a
group whose members all share the split key `K`. -/
lemma buildSampleGo_isSome (g : List Nat) : ∀ (names : List String) {α : Type}
    (stream : Nat → α) (K : List Char) (key0 : Option (List Char))
    (acc : List (List Char × α)),
    (key0 = none ∨ key0 = some K) →
    (∀ idx ∈ g, ∃ fname ext, names[idx]? = some fname ∧
      splitnameCore fname.toList = some (K, ext)) →
    (buildSampleGo names stream g key0 acc).isSome = true := by
  induction g with
  | nil => intro names α stream K key0 acc _ _; simp [buildSampleGo]
  | cons i rest ih =>
    intro names α stream K key0 acc hkey hall
    obtain ⟨fname, ext, h1, h2⟩ := hall i (List.mem_cons_self i rest)
    have hrest : ∀ idx ∈ rest, ∃ fname ext, names[idx]? = some fname ∧
        splitnameCore fname.toList = some (K, ext) :=
      fun idx hidx => hall idx (List.mem_cons_of_mem i hidx)
    rcases hkey with hk0 | hk0 <;> subst hk0
    · simp only [buildSampleGo, h1, h2, if_pos rfl]
      exact ih names stream K (some K) _ (Or.inr rfl) hrest
    · simp only [buildSampleGo, h1, h2, ite_self, if_pos rfl]
      exact ih names stream K (some K) _ (Or.inr rfl) hrest

/-! ## Claim C10 -/

/-- C10: within a Sample Grouper whose groups come from its own grouping
pass over the reader's member names, the per-member same-key assertion in
`__getitem__` can never fail for any in-range index: the access succeeds
(the `MalformedSampleError` branch is unreachable), because every member
of a group shares the same split key by construction. -/
theorem C10_assertion_unreachable (names : List String) (α : Type) (stream : Nat → α)
    (idx : Int) (g : List Nat) (h : pyListGet (group_by_key names) idx = some g) :
    (IndexedTarSamples.getitem names stream (group_by_key names) idx).isSome = true := by
  have hmem : g ∈ group_by_key names := by
    unfold pyListGet at h
    split at h
    · exact List.getElem?_mem h
    · split at h
      · exact List.getElem?_mem h
      · exact Option.noConfusion h
  obtain ⟨K, _, hall⟩ := group_by_key_good names g hmem
  show (match pyListGet (group_by_key names) idx with
    | none => none
    | some indexes => buildSampleGo names stream indexes none []).isSome = true
  rw [h]
  exact buildSampleGo_isSome g names stream K none [] (Or.inl rfl) hall

/-- Witness for C10 on a one-member archive. -/
theorem C10_witness :
    (IndexedTarSamples.getitem ["x.a"] (fun i => i) (group_by_key ["x.a"]) 0).isSome = true :=
  C10_assertion_unreachable ["x.a"] Nat (fun i => i) 0 [0] (by decide)

/-! ## Claim C3 -/

/-- C3 as stated is refuted: `get(1)` on the example archive returns a
sample whose member byte stream is stored under the key `".jpg"` (the
extension as split by the regex, including the leading dot), so there is
no binding for the key `"jpg"`. -/
theorem C3_counterexample :
    (IndexedTarSamples.getitem ["a.jpg", "a.txt", "b.jpg", "c.jpg", "c.txt"] (fun i => i)
      (group_by_key ["a.jpg", "a.txt", "b.jpg", "c.jpg", "c.txt"]) 1).map
      (fun s => dictLookup s.entries "jpg".toList) = some none := by decide

/-- C3 (amended): for the member names
`["a.jpg","a.txt","b.jpg","c.jpg","c.txt"]`, `get(1)` returns the sample
holding the byte stream of member 2 under the extension key `".jpg"`
(the split extension, leading dot included) with sample key `"b"`. -/
theorem C3_get1 (α : Type) (stream : Nat → α) :
    IndexedTarSamples.getitem ["a.jpg", "a.txt", "b.jpg", "c.jpg", "c.txt"] stream
      (group_by_key ["a.jpg", "a.txt", "b.jpg", "c.jpg", "c.txt"]) 1
      = some ⟨[(".jpg".toList, stream 2)], some "b".toList⟩ := rfl

/-! ## Claim C4 -/

lemma searchsorted_cumsum_go_ge (l : List Nat) : ∀ (acc : Nat) (v : Int),
    (acc : Int) + (l.sum : Int) ≤ v →
    searchsorted_right (cumsum_go acc l) v = l.length := by
  induction l with
  | nil => intro acc v _; rfl
  | cons x xs ih =>
    intro acc v h
    have hsum : ((acc + x : Nat) : Int) + (xs.sum : Int) ≤ v := by
      simp only [List.sum_cons] at h
      push_cast at h ⊢
      linarith
    have hx : ¬(v < ((acc + x : Nat) : Int)) := by
      have h0 : (0 : Int) ≤ (xs.sum : Int) := by positivity
      omega
    simp only [cumsum_go, searchsorted_right, if_neg hx, List.length_cons]
    rw [ih (acc + x) v hsum]

lemma get_shard_inner (lengths : List Nat) (v : Int)
    (hj : searchsorted_right (cumsum_go 0 lengths) v < lengths.length) :
    (ShardListDataset.get_shard_idx lengths v).2
      = v - ((lengths.take (searchsorted_right (cumsum_go 0 lengths) v)).sum : Int) := by
  show (if searchsorted_right (cumsum_go 0 lengths) v = 0 then v
      else v - ((cumsum_go 0 lengths).getD
        (searchsorted_right (cumsum_go 0 lengths) v - 1) 0 : Int)) = _
  by_cases hz : searchsorted_right (cumsum_go 0 lengths) v = 0
  · simp [hz]
  · have hj' : searchsorted_right (cumsum_go 0 lengths) v - 1 < lengths.length := by omega
    simp only [if_neg hz]
    rw [cumsum_go_getD lengths 0 _ hj',
      show searchsorted_right (cumsum_go 0 lengths) v - 1 + 1
        = searchsorted_right (cumsum_go 0 lengths) v by omega]
    simp

/-- Concrete dataset with shard lengths `[5, 0, 3]` and consistent tar
contents, used for the C4 evaluations. -/
def exShards : List ShardDesc :=
  [⟨"s0", 5, ["0.x", "1.x", "2.x", "3.x", "4.x"]⟩,
   ⟨"s1", 0, []⟩,
   ⟨"s2", 3, ["5.x", "6.x", "7.x"]⟩]

/-- C4 as stated is refuted at index `-1`: the dataset performs no range
check, `np.searchsorted` sends every negative index to shard 0, and
Python list indexing wraps the negative inner index, so `get(-1)`
returns the last sample of the first shard instead of raising. -/
theorem C4_counterexample :
    ShardListDataset.getitem exShards (fun _ i => i) (-1)
      = some ⟨[(".x".toList, 4)], some "4".toList⟩ := by decide

/-- C4 (amended): `get(i)` fails with an `IndexError` for every
`i ≥ total` (the failure happens before any state is touched, so
subsequent valid accesses succeed: every `0 ≤ i < total` returns a
sample when the declared shard lengths match the grouped tar contents);
a negative `i` is not range-checked: it resolves to shard 0 with a
negative local index that wraps Python-style into the first shard's
sample list, e.g. `get(-1)` returns the first shard's last sample. -/
theorem C4_index_errors :
    (∀ (shards : List ShardDesc) (α : Type) (stream : String → Nat → α) (i : Int),
      ((((shards.map (fun d => d.nsamples)).sum : Nat) : Int)) ≤ i →
      ShardListDataset.getitem shards stream i = none) ∧
    (∀ (shards : List ShardDesc) (α : Type) (stream : String → Nat → α) (i : Int),
      (∀ d ∈ shards, (group_by_key d.members).length = d.nsamples) →
      0 ≤ i → i < ((((shards.map (fun d => d.nsamples)).sum : Nat) : Int)) →
      (ShardListDataset.getitem shards stream i).isSome = true) ∧
    ShardListDataset.getitem exShards (fun _ i => i) (-1)
      = some ⟨[(".x".toList, 4)], some "4".toList⟩ := by
  refine ⟨?_, ?_, by decide⟩
  · intro shards α stream i hge
    have hlen : searchsorted_right (cumsum_go 0 (shards.map (fun d => d.nsamples))) i
        = (shards.map (fun d => d.nsamples)).length :=
      searchsorted_cumsum_go_ge (shards.map (fun d => d.nsamples)) 0 i
        (by rw [Nat.cast_zero, zero_add]; exact hge)
    have hnone : shards[(ShardListDataset.get_shard_idx
        (shards.map (fun d => d.nsamples)) i).1]? = none := by
      apply List.getElem?_eq_none
      show shards.length ≤ (ShardListDataset.get_shard_idx _ i).1
      have heq : (ShardListDataset.get_shard_idx (shards.map (fun d => d.nsamples)) i).1
          = searchsorted_right (cumsum_go 0 (shards.map (fun d => d.nsamples))) i := rfl
      rw [heq, hlen, List.length_map]
    show (match shards[(ShardListDataset.get_shard_idx
        (shards.map (fun d => d.nsamples)) i).1]? with
      | none => none
      | some desc => IndexedTarSamples.getitem desc.members (stream desc.url)
          (group_by_key desc.members) (ShardListDataset.get_shard_idx
            (shards.map (fun d => d.nsamples)) i).2) = none
    rw [hnone]
  · intro shards α stream i hcons h0 hlt
    have hlo : ((0 : Nat) : Int) ≤ i := by rw [Nat.cast_zero]; exact h0
    have hhi : i < ((0 : Nat) : Int) + ((((shards.map (fun d => d.nsamples)).sum : Nat) : Int)) := by
      rw [Nat.cast_zero, zero_add]; exact hlt
    obtain ⟨hj, hle, hlt2⟩ :=
      searchsorted_cumsum_go (shards.map (fun d => d.nsamples)) 0 i hlo hhi
    rw [Nat.cast_zero, zero_add] at hle hlt2
    have hjs : searchsorted_right (cumsum_go 0 (shards.map (fun d => d.nsamples))) i
        < shards.length := by
      rw [← List.length_map shards (fun d => d.nsamples)]
      exact hj
    have hinner := get_shard_inner (shards.map (fun d => d.nsamples)) i hj
    have hdesc : shards[searchsorted_right
        (cumsum_go 0 (shards.map (fun d => d.nsamples))) i]?
        = some (shards[searchsorted_right
          (cumsum_go 0 (shards.map (fun d => d.nsamples))) i]) :=
      List.getElem?_eq_getElem hjs
    have hfst : (ShardListDataset.get_shard_idx (shards.map (fun d => d.nsamples)) i).1
        = searchsorted_right (cumsum_go 0 (shards.map (fun d => d.nsamples))) i := rfl
    have hle0 : (0 : Int) ≤ (ShardListDataset.get_shard_idx
        (shards.map (fun d => d.nsamples)) i).2 := by
      rw [hinner]
      omega
    have hsum : ((shards.map (fun d => d.nsamples)).take
          (searchsorted_right (cumsum_go 0 (shards.map (fun d => d.nsamples))) i + 1)).sum
        = ((shards.map (fun d => d.nsamples)).take
            (searchsorted_right (cumsum_go 0 (shards.map (fun d => d.nsamples))) i)).sum
          + (shards.map (fun d => d.nsamples))[searchsorted_right
              (cumsum_go 0 (shards.map (fun d => d.nsamples))) i] :=
      List.sum_take_succ _ _ hj
    have hlt3 : (ShardListDataset.get_shard_idx (shards.map (fun d => d.nsamples)) i).2
        < ((((shards.map (fun d => d.nsamples))[searchsorted_right
            (cumsum_go 0 (shards.map (fun d => d.nsamples))) i] : Nat) : Int)) := by
      rw [hinner]
      rw [hsum, Nat.cast_add] at hlt2
      omega
    have hnsamp : (shards.map (fun d => d.nsamples))[searchsorted_right
          (cumsum_go 0 (shards.map (fun d => d.nsamples))) i]
        = (shards[searchsorted_right
            (cumsum_go 0 (shards.map (fun d => d.nsamples))) i]).nsamples :=
      List.getElem_map _
    have hglen : (group_by_key (shards[searchsorted_right
          (cumsum_go 0 (shards.map (fun d => d.nsamples))) i]).members).length
        = (shards[searchsorted_right
            (cumsum_go 0 (shards.map (fun d => d.nsamples))) i]).nsamples :=
      hcons _ (List.getElem_mem hjs)
    have htoNat : (ShardListDataset.get_shard_idx (shards.map (fun d => d.nsamples)) i).2.toNat
        < (group_by_key (shards[searchsorted_right
            (cumsum_go 0 (shards.map (fun d => d.nsamples))) i]).members).length := by
      rw [hglen, ← hnsamp]
      omega
    obtain ⟨g, hg⟩ : ∃ g, pyListGet (group_by_key (shards[searchsorted_right
          (cumsum_go 0 (shards.map (fun d => d.nsamples))) i]).members)
        (ShardListDataset.get_shard_idx (shards.map (fun d => d.nsamples)) i).2 = some g := by
      unfold pyListGet
      rw [if_pos hle0]
      exact ⟨_, List.getElem?_eq_getElem htoNat⟩
    have hmem : g ∈ group_by_key (shards[searchsorted_right
        (cumsum_go 0 (shards.map (fun d => d.nsamples))) i]).members := by
      unfold pyListGet at hg
      rw [if_pos hle0] at hg
      exact List.getElem?_mem hg
    obtain ⟨K, _, hall⟩ := group_by_key_good _ g hmem
    show (match shards[(ShardListDataset.get_shard_idx
        (shards.map (fun d : ShardDesc => d.nsamples)) i).1]? with
      | none => none
      | some desc => IndexedTarSamples.getitem desc.members (stream desc.url)
          (group_by_key desc.members) (ShardListDataset.get_shard_idx
            (shards.map (fun d : ShardDesc => d.nsamples)) i).2).isSome = true
    rw [hfst, hdesc]
    show (match pyListGet (group_by_key (shards[searchsorted_right
          (cumsum_go 0 (shards.map (fun d : ShardDesc => d.nsamples))) i]).members)
        (ShardListDataset.get_shard_idx
          (shards.map (fun d : ShardDesc => d.nsamples)) i).2 with
      | none => none
      | some indexes => buildSampleGo (shards[searchsorted_right
            (cumsum_go 0 (shards.map (fun d : ShardDesc => d.nsamples))) i]).members
          (stream (shards[searchsorted_right
            (cumsum_go 0 (shards.map (fun d : ShardDesc => d.nsamples))) i]).url)
          indexes none []).isSome = true
    rw [hg]
    exact buildSampleGo_isSome g _ _ K none [] (Or.inl rfl) hall

/-- Witness for C4 at the `[5, 0, 3]` dataset, index 8 (= total). -/
theorem C4_witness :
    ShardListDataset.getitem exShards (fun _ i => i) 8 = none :=
  C4_index_errors.1 exShards Nat (fun _ i => i) 8 (by decide)

/-! ## Claim C7 -/

lemma check_cache_misses_true (a m : Nat) :
    check_cache_misses true a m = (healthCond (a, m), !healthCond (a, m)) := by
  unfold check_cache_misses healthCond
  cases h1 : decide (100 < a) <;> cases h2 : decide (3 * a < 10 * m) <;> simp [h1, h2]

lemma check_cache_misses_false (a m : Nat) :
    check_cache_misses false a m = (false, false) := by
  unfold check_cache_misses
  simp

lemma runHealthChecks_disabled : ∀ stats : List (Nat × Nat),
    runHealthChecks false stats = List.replicate stats.length false := by
  intro stats
  induction stats with
  | nil => rfl
  | cons p rest ih =>
    obtain ⟨a, m⟩ := p
    simp only [runHealthChecks, check_cache_misses_false, List.length_cons,
      List.replicate_succ]
    rw [ih]

lemma runHealthChecks_cons (a m : Nat) (rest : List (Nat × Nat)) :
    runHealthChecks true ((a, m) :: rest)
      = healthCond (a, m) :: runHealthChecks (!healthCond (a, m)) rest := by
  simp only [runHealthChecks, check_cache_misses_true]

/-- C7: over an instance's lifetime the cache-health advisory warning is
emitted at most once: it fires exactly on the first access whose
post-access statistics satisfy `accesses > 100` and
`misses / accesses > 0.3`, and the check is permanently disabled from
then on (the method rebinds itself to a no-op), so no later access can
emit it again.  `stats` is the sequence of `(accesses, misses)` pairs
observed by the per-access checks. -/
theorem C7_warning_once (stats : List (Nat × Nat)) :
    (runHealthChecks true stats).count true ≤ 1 ∧
    (∀ n : Nat, (runHealthChecks true stats)[n]? = some true ↔
      (∃ p, stats[n]? = some p ∧ healthCond p = true ∧
        ∀ m, m < n → ∀ q, stats[m]? = some q → healthCond q = false)) := by
  induction stats with
  | nil =>
    refine ⟨by simp [runHealthChecks], ?_⟩
    intro n
    constructor
    · intro h; simp [runHealthChecks] at h
    · rintro ⟨p, hp, _, _⟩; simp at hp
  | cons q rest ih =>
    obtain ⟨a, m⟩ := q
    by_cases hc : healthCond (a, m) = true
    · rw [runHealthChecks_cons, hc]
      have hdis : runHealthChecks (!true) rest = List.replicate rest.length false := by
        rw [show (!true) = false from rfl]
        exact runHealthChecks_disabled rest
      rw [hdis]
      constructor
      · simp [List.count_cons, List.count_replicate]
      · intro n
        cases n with
        | zero =>
          simp only [List.getElem?_cons_zero]
          constructor
          · intro _
            exact ⟨(a, m), rfl, hc, fun m hm => absurd hm (Nat.not_lt_zero m)⟩
          · intro _; trivial
        | succ n' =>
          simp only [List.getElem?_cons_succ]
          constructor
          · intro h
            by_cases hn : n' < rest.length
            · rw [List.getElem?_replicate, if_pos hn] at h
              exact absurd (Option.some.inj h) (by simp)
            · rw [List.getElem?_replicate, if_neg hn] at h
              exact Option.noConfusion h
          · rintro ⟨p, _, _, hall⟩
            exact absurd hc (by simpa using hall 0 (Nat.succ_pos n') (a, m) (by simp))
    · have hcf : healthCond (a, m) = false := by
        cases h : healthCond (a, m)
        · rfl
        · exact absurd h hc
      rw [runHealthChecks_cons, hcf]
      have hen : (!false) = true := rfl
      rw [hen]
      obtain ⟨ihc, ihn⟩ := ih
      constructor
      · simpa [List.count_cons] using ihc
      · intro n
        cases n with
        | zero =>
          simp only [List.getElem?_cons_zero]
          constructor
          · intro h; exact absurd (Option.some.inj h) (by simp)
          · rintro ⟨p, hp, hcond, _⟩
            have : p = (a, m) := (Option.some.inj hp).symm
            rw [this] at hcond
            exact absurd hcond hc
        | succ n' =>
          simp only [List.getElem?_cons_succ]
          rw [ihn n']
          constructor
          · rintro ⟨p, hp, hcond, hall⟩
            refine ⟨p, hp, hcond, ?_⟩
            intro m hm q hq
            cases m with
            | zero =>
              have : q = (a, m) := by
                have := hq
                simp only [List.getElem?_cons_zero] at this
                exact (Option.some.inj this).symm
              rw [this]
              exact hcf
            | succ m' =>
              simp only [List.getElem?_cons_succ] at hq
              exact hall m' (Nat.lt_of_succ_lt_succ hm) q hq
          · rintro ⟨p, hp, hcond, hall⟩
            refine ⟨p, hp, hcond, ?_⟩
            intro m hm q hq
            exact hall (m + 1) (Nat.succ_lt_succ hm) q (by simpa using hq)

/-- Witness for C7 on a concrete statistics trace: hit the threshold at
the second access and never warn again. -/
theorem C7_witness :
    (runHealthChecks true [(50, 40), (101, 40), (102, 41)]).count true ≤ 1 :=
  (C7_warning_once [(50, 40), (101, 40), (102, 41)]).1

/-! ## Claim C8 -/

lemma get_shard_stats {α : Type} (openShard : String → α) (s : LRUShards α) (url : String) :
    (LRUShards.get_shard openShard s url).2.accesses = s.accesses + 1 ∧
    (s.lru.containsKey url = false →
      (LRUShards.get_shard openShard s url).2.misses = s.misses + 1 ∧
      (LRUShards.get_shard openShard s url).2.last_missed = true) ∧
    (s.lru.containsKey url = true →
      (LRUShards.get_shard openShard s url).2.misses = s.misses ∧
      (LRUShards.get_shard openShard s url).2.last_missed = false) := by
  by_cases h : s.lru.containsKey url = true
  · refine ⟨?_, ?_, ?_⟩ <;> simp [LRUShards.get_shard, h]
  · have hf : s.lru.containsKey url = false := by
      cases h2 : s.lru.containsKey url
      · rfl
      · exact absurd h2 h
    refine ⟨?_, ?_, ?_⟩ <;> simp [LRUShards.get_shard, hf]

lemma run_misses_le {α : Type} (openShard : String → α) :
    ∀ (urls : List String) (s : LRUShards α), s.misses ≤ s.accesses →
    (LRUShards.run openShard s urls).misses ≤ (LRUShards.run openShard s urls).accesses := by
  intro urls
  induction urls with
  | nil => intro s h; exact h
  | cons u us ih =>
    intro s h
    obtain ⟨ha, hm, hh⟩ := get_shard_stats openShard s u
    apply ih
    by_cases hc : s.lru.containsKey u = true
    · obtain ⟨h1, _⟩ := hh hc
      omega
    · have hf : s.lru.containsKey u = false := by
        cases h2 : s.lru.containsKey u
        · rfl
        · exact absurd h2 hc
      obtain ⟨h1, _⟩ := hm hf
      omega

/-- C8: every `get_shard` call increments the access counter by exactly
one; the miss counter is incremented by exactly one and the
`last_missed` flag set if and only if the requested shard id was absent
from the pool, and on a hit the flag is cleared and the miss counter
unchanged; hence after any call sequence from a fresh cache,
`misses ≤ accesses`. -/
theorem C8_cache_stats :
    (∀ (α : Type) (openShard : String → α) (s : LRUShards α) (url : String),
      (LRUShards.get_shard openShard s url).2.accesses = s.accesses + 1 ∧
      (s.lru.containsKey url = false →
        (LRUShards.get_shard openShard s url).2.misses = s.misses + 1 ∧
        (LRUShards.get_shard openShard s url).2.last_missed = true) ∧
      (s.lru.containsKey url = true →
        (LRUShards.get_shard openShard s url).2.misses = s.misses ∧
        (LRUShards.get_shard openShard s url).2.last_missed = false)) ∧
    (∀ (α : Type) (openShard : String → α) (cap : Nat) (urls : List String),
      (LRUShards.run openShard (LRUShards.init cap) urls).misses
        ≤ (LRUShards.run openShard (LRUShards.init cap) urls).accesses) :=
  ⟨fun _ openShard s url => get_shard_stats openShard s url,
   fun _ openShard cap urls => run_misses_le openShard urls (LRUShards.init cap) (Nat.le_refl 0)⟩

/-- Witness for C8: a first access to a fresh cache is a miss. -/
theorem C8_witness :
    (LRUShards.get_shard (fun _ => (0 : Nat)) (LRUShards.init 2) "a").2.misses
        = (LRUShards.init 2 : LRUShards Nat).misses + 1 ∧
    (LRUShards.get_shard (fun _ => (0 : Nat)) (LRUShards.init 2) "a").2.last_missed = true :=
  (C8_cache_stats.1 Nat (fun _ => 0) (LRUShards.init 2) "a").2.1 (by decide)

/-! ## Claim C9 -/

lemma quoteSafeByte_bounds (b : Nat) (h : quoteSafeByte b = true) : b ≠ 37 ∧ b ≠ 47 := by
  unfold quoteSafeByte alwaysSafeByte at h
  simp only [Bool.or_eq_true, decide_eq_true_eq] at h
  omega

lemma hexDigitCode_bounds (x : Nat) :
    hexDigitCode x ≠ 37 ∧ hexDigitCode x ≠ 47 := by
  unfold hexDigitCode
  split <;> omega

lemma hexDigitCode_inj (x y : Nat) (hx : x < 16) (hy : y < 16)
    (h : hexDigitCode x = hexDigitCode y) : x = y := by
  unfold hexDigitCode at h
  split at h <;> split at h <;> omega

lemma quoteBytes_no_slash : ∀ s : List Nat, 47 ∉ quoteBytes s := by
  intro s
  induction s with
  | nil => exact List.not_mem_nil 47
  | cons b rest ih =>
    by_cases hs : quoteSafeByte b = true
    · simp only [quoteBytes, if_pos hs, List.singleton_append, List.mem_cons]
      rintro (h1 | h2)
      · exact (quoteSafeByte_bounds b hs).2 h1.symm
      · exact ih h2
    · simp only [quoteBytes, if_neg hs, List.cons_append, List.nil_append, List.mem_cons]
      rintro (h3 | h4 | h5 | h6)
      · exact absurd h3.symm (by decide)
      · exact (hexDigitCode_bounds (b / 16)).2 h4.symm
      · exact (hexDigitCode_bounds (b % 16)).2 h5.symm
      · exact ih h6

lemma quoteBytes_ne_nil (b : Nat) (rest : List Nat) : quoteBytes (b :: rest) ≠ [] := by
  by_cases hs : quoteSafeByte b = true
  · simp [quoteBytes, if_pos hs]
  · simp [quoteBytes, if_neg hs]

lemma quoteBytes_injective : ∀ s1 s2 : List Nat, (∀ b ∈ s1, b < 256) →
    (∀ b ∈ s2, b < 256) → quoteBytes s1 = quoteBytes s2 → s1 = s2 := by
  intro s1
  induction s1 with
  | nil =>
    intro s2 _ _ heq
    cases s2 with
    | nil => rfl
    | cons b rest => exact absurd heq.symm (quoteBytes_ne_nil b rest)
  | cons b1 r1 ih =>
    intro s2 h1 h2 heq
    cases s2 with
    | nil => exact absurd heq (quoteBytes_ne_nil b1 r1)
    | cons b2 r2 =>
      have hb1 : b1 < 256 := h1 b1 (List.mem_cons_self b1 r1)
      have hb2 : b2 < 256 := h2 b2 (List.mem_cons_self b2 r2)
      have hr1 : ∀ b ∈ r1, b < 256 := fun b hb => h1 b (List.mem_cons_of_mem b1 hb)
      have hr2 : ∀ b ∈ r2, b < 256 := fun b hb => h2 b (List.mem_cons_of_mem b2 hb)
      by_cases hs1 : quoteSafeByte b1 = true <;> by_cases hs2 : quoteSafeByte b2 = true
      · simp only [quoteBytes, if_pos hs1, if_pos hs2, List.singleton_append,
          List.cons.injEq] at heq
        rw [heq.1, ih r2 hr1 hr2 heq.2]
      · simp only [quoteBytes, if_pos hs1, if_neg hs2, List.singleton_append,
          List.cons_append, List.nil_append, List.cons.injEq] at heq
        exact absurd heq.1 (quoteSafeByte_bounds b1 hs1).1
      · simp only [quoteBytes, if_neg hs1, if_pos hs2, List.singleton_append,
          List.cons_append, List.nil_append, List.cons.injEq] at heq
        exact absurd heq.1.symm (quoteSafeByte_bounds b2 hs2).1
      · simp only [quoteBytes, if_neg hs1, if_neg hs2, List.cons_append,
          List.nil_append, List.cons.injEq] at heq
        obtain ⟨_, hh, hl, htail⟩ := heq
        have hd : b1 / 16 = b2 / 16 :=
          hexDigitCode_inj _ _ (by omega) (by omega) hh
        have hm : b1 % 16 = b2 % 16 :=
          hexDigitCode_inj _ _ (by omega) (by omega) hl
        have : b1 = b2 := by omega
        rw [this, ih r2 hr1 hr2 htail]

/-- C9: the escaped-global-dir localizer is injective — distinct shard
identifiers (as UTF-8 byte lists) map to distinct local paths — and the
escaped name is a single filename directly under the base directory: it
contains no path separator (byte 47). -/
theorem C9_localname_injective :
    (∀ dldir s1 s2 : List Nat, (∀ b ∈ s1, b < 256) → (∀ b ∈ s2, b < 256) → s1 ≠ s2 →
      default_localname dldir s1 ≠ default_localname dldir s2) ∧
    (∀ s : List Nat, 47 ∉ quoteBytes s) := by
  refine ⟨?_, quoteBytes_no_slash⟩
  intro dldir s1 s2 h1 h2 hne heq
  apply hne
  apply quoteBytes_injective s1 s2 h1 h2
  unfold default_localname osPathJoin at heq
  have hh1 : ¬((quoteBytes s1).head? = some 47) := by
    intro hh
    rcases hq : quoteBytes s1 with _ | ⟨c, rest⟩
    · rw [hq] at hh; exact Option.noConfusion hh
    · rw [hq] at hh
      have : c = 47 := Option.some.inj hh
      exact quoteBytes_no_slash s1 (by rw [hq, this]; exact List.mem_cons_self 47 rest)
  have hh2 : ¬((quoteBytes s2).head? = some 47) := by
    intro hh
    rcases hq : quoteBytes s2 with _ | ⟨c, rest⟩
    · rw [hq] at hh; exact Option.noConfusion hh
    · rw [hq] at hh
      have : c = 47 := Option.some.inj hh
      exact quoteBytes_no_slash s2 (by rw [hq, this]; exact List.mem_cons_self 47 rest)
  rw [if_neg hh1, if_neg hh2] at heq
  by_cases hd : dldir = [] ∨ dldir.getLast? = some 47
  · rw [if_pos hd, if_pos hd] at heq
    exact List.append_cancel_left heq
  · rw [if_neg hd, if_neg hd] at heq
    have := List.append_cancel_left heq
    exact List.cons.inj this |>.2

/-- Witness for C9 at the byte identifiers `[1]` and `[2]`. -/
theorem C9_witness :
    default_localname [99] [1] ≠ default_localname [99] [2] :=
  C9_localname_injective.1 [99] [1] [2] (by decide) (by decide) (by decide)

/-! ## Lemmas: shuffling is a permutation -/

lemma cons_middle_swap_perm (T D : List α) (a b : α) :
    (b :: (T ++ a :: D)).Perm (a :: (T ++ b :: D)) := by
  have h1 : (b :: (T ++ a :: D)).Perm (b :: a :: (T ++ D)) :=
    List.Perm.cons b List.perm_middle
  have h2 : (b :: a :: (T ++ D)).Perm (a :: b :: (T ++ D)) := List.Perm.swap a b (T ++ D)
  have h3 : (a :: b :: (T ++ D)).Perm (a :: (T ++ b :: D)) :=
    List.Perm.cons a List.perm_middle.symm
  exact (h1.trans h2).trans h3

lemma set_set_swap_perm : ∀ (l : List α) (i j : Nat) (a b : α),
    l[i]? = some a → l[j]? = some b → ((l.set i b).set j a).Perm l := by
  intro l
  induction l with
  | nil => intro i j a b hi _; rw [List.getElem?_nil] at hi; exact Option.noConfusion hi
  | cons x xs ih =>
    intro i j a b hi hj
    cases i with
    | zero =>
      have hxa : x = a := Option.some.inj (by simpa using hi)
      cases j with
      | zero =>
        rw [List.set_set, List.set_cons_zero, ← hxa]
      | succ j' =>
        have hj' : xs[j']? = some b := by simpa using hj
        obtain ⟨hjlt, hjget⟩ := List.getElem?_eq_some_iff.mp hj'
        rw [List.set_cons_zero, List.set_cons_succ, hxa,
          List.set_eq_take_cons_drop a hjlt]
        have hxs : xs = xs.take j' ++ b :: xs.drop (j' + 1) := by
          conv_lhs => rw [← List.take_append_drop j' xs]
          rw [List.drop_eq_getElem_cons hjlt, hjget]
        conv_rhs => rw [hxs]
        exact cons_middle_swap_perm _ _ a b
    | succ i' =>
      cases j with
      | zero =>
        have hxb : x = b := Option.some.inj (by simpa using hj)
        have hi' : xs[i']? = some a := by simpa using hi
        obtain ⟨hilt, higet⟩ := List.getElem?_eq_some_iff.mp hi'
        rw [List.set_cons_succ, List.set_cons_zero, hxb,
          List.set_eq_take_cons_drop b hilt]
        have hxs : xs = xs.take i' ++ a :: xs.drop (i' + 1) := by
          conv_lhs => rw [← List.take_append_drop i' xs]
          rw [List.drop_eq_getElem_cons hilt, higet]
        conv_rhs => rw [hxs]
        exact cons_middle_swap_perm _ _ b a
      | succ j' =>
        have hi' : xs[i']? = some a := by simpa using hi
        have hj' : xs[j']? = some b := by simpa using hj
        rw [List.set_cons_succ, List.set_cons_succ]
        exact List.Perm.cons x (ih i' j' a b hi' hj')

lemma swapAt_perm (l : List α) (i j : Nat) : (swapAt l i j).Perm l := by
  unfold swapAt
  rcases hi : l[i]? with _ | a
  · exact List.Perm.refl l
  · rcases hj : l[j]? with _ | b
    · exact List.Perm.refl l
    · exact set_set_swap_perm l i j a b hi hj

lemma shuffleGo_perm (next : σ → Nat × σ) :
    ∀ (n : Nat) (l : List α) (g : σ), ((shuffleGo next n l g).1).Perm l := by
  intro n
  induction n with
  | zero => intro l g; exact List.Perm.refl l
  | succ n' ih =>
    intro l g
    show ((shuffleGo next n' (swapAt l (n' + 1) ((next g).1 % (n' + 2))) (next g).2).1).Perm l
    exact (ih _ _).trans (swapAt_perm l (n' + 1) _)

lemma pyShuffle_perm (next : σ → Nat × σ) (g : σ) (l : List α) :
    ((pyShuffle next g l).1).Perm l := by
  unfold pyShuffle
  rcases hl : l.length with _ | n
  · exact List.Perm.refl l
  · exact shuffleGo_perm next n l g

/-! ## Lemmas: sampler traversal structure -/

lemma iterBlocks_spec (next : σ → Nat × σ) (ranges : List (Nat × Nat)) :
    ∀ (sp : List Nat) (g : σ), sp.Nodup →
    ∃ bl : Nat → List Nat,
      ShardListSampler.iterBlocks next ranges sp g = (sp.map bl).flatten ∧
      ∀ s ∈ sp, (bl s).Perm
        (List.range' (ranges.getD s (0, 0)).1
          ((ranges.getD s (0, 0)).2 - (ranges.getD s (0, 0)).1)) := by
  intro sp
  induction sp with
  | nil =>
    intro g _
    exact ⟨fun _ => [], rfl, fun s hs => absurd hs (List.not_mem_nil s)⟩
  | cons s rest ih =>
    intro g hnd
    have hs : s ∉ rest := (List.nodup_cons.mp hnd).1
    have hrest : rest.Nodup := (List.nodup_cons.mp hnd).2
    obtain ⟨bl', hbl1, hbl2⟩ :=
      ih (pyShuffle next g (List.range' (ranges.getD s (0, 0)).1
        ((ranges.getD s (0, 0)).2 - (ranges.getD s (0, 0)).1))).2 hrest
    refine ⟨fun t => if t = s then
        (pyShuffle next g (List.range' (ranges.getD s (0, 0)).1
          ((ranges.getD s (0, 0)).2 - (ranges.getD s (0, 0)).1))).1
      else bl' t, ?_, ?_⟩
    · show ShardListSampler.iterBlocks next ranges (s :: rest) g = _
      have hmap : rest.map (fun t => if t = s then
          (pyShuffle next g (List.range' (ranges.getD s (0, 0)).1
            ((ranges.getD s (0, 0)).2 - (ranges.getD s (0, 0)).1))).1
        else bl' t) = rest.map bl' := by
        apply List.map_congr_left
        intro t ht
        have : t ≠ s := fun h => hs (h ▸ ht)
        rw [if_neg this]
      simp only [List.map_cons, if_pos rfl, hmap, List.flatten_cons, ← hbl1]
      rfl
    · intro t ht
      rcases List.mem_cons.mp ht with h1 | h2
      · subst h1
        simp only [if_pos rfl]
        exact pyShuffle_perm next g _
      · have : t ≠ s := fun h => hs (h ▸ h2)
        simp only [if_neg this]
        exact hbl2 t h2

lemma map_getD_range (rs : List β) (d : β) (f : β → γ) :
    (List.range rs.length).map (fun s => f (rs.getD s d)) = rs.map f := by
  induction rs with
  | nil => rfl
  | cons r rest ih =>
    show (List.range (rest.length + 1)).map (fun s => f ((r :: rest).getD s d)) = _
    rw [List.range_succ_eq_map, List.map_cons, List.map_map]
    have hcomp : ((fun s => f ((r :: rest).getD s d)) ∘ Nat.succ)
        = fun s => f (rest.getD s d) := by
      funext s
      simp [List.getD_cons_succ]
    rw [hcomp, ih]
    simp

lemma mkRanges_go_length : ∀ (lengths : List Nat) (st : Nat),
    (mkRanges_go st lengths).length = lengths.length := by
  intro lengths
  induction lengths with
  | nil => intro st; rfl
  | cons l ls ih => intro st; simp [mkRanges_go, ih]

lemma mkRanges_go_flatten : ∀ (lengths : List Nat) (st : Nat),
    ((mkRanges_go st lengths).map (fun p => List.range' p.1 (p.2 - p.1))).flatten
      = List.range' st lengths.sum := by
  intro lengths
  induction lengths with
  | nil => intro st; rfl
  | cons l ls ih =>
    intro st
    simp only [mkRanges_go, List.map_cons, List.flatten_cons, Nat.add_sub_cancel_left,
      List.sum_cons]
    rw [ih (st + l)]
    have := List.range'_append st l ls.sum 1
    rw [one_mul] at this
    rw [this, Nat.add_comm ls.sum l]

lemma mkRanges_go_getD : ∀ (lengths : List Nat) (st s : Nat), s < lengths.length →
    (mkRanges_go st lengths).getD s (0, 0)
      = (st + (lengths.take s).sum, st + (lengths.take (s + 1)).sum) := by
  intro lengths
  induction lengths with
  | nil => intro st s h; exact absurd h (Nat.not_lt_zero s)
  | cons l ls ih =>
    intro st s h
    cases s with
    | zero => simp [mkRanges_go]
    | succ s' =>
      have h' : s' < ls.length := Nat.lt_of_succ_lt_succ h
      simp only [mkRanges_go, List.getD_cons_succ, List.take_succ_cons, List.sum_cons]
      rw [ih (st + l) s' h', Nat.add_assoc, Nat.add_assoc]

lemma iterBlocks_perm_range (next : σ → Nat × σ) (lengths : List Nat)
    (sp : List Nat) (g : σ)
    (hsp : sp.Perm (List.range (mkRanges lengths).length)) :
    (ShardListSampler.iterBlocks next (mkRanges lengths) sp g).Perm
      (List.range lengths.sum) ∧
    ∃ bl : Nat → List Nat,
      ShardListSampler.iterBlocks next (mkRanges lengths) sp g = (sp.map bl).flatten ∧
      ∀ s ∈ sp, (bl s).Perm
        (List.range' ((lengths.take s).sum) (lengths.getD s 0)) := by
  have hmk : mkRanges lengths = mkRanges_go 0 lengths := rfl
  have hnd : sp.Nodup := (hsp.nodup_iff).mpr (List.nodup_range _)
  obtain ⟨bl, hbl1, hbl2⟩ := iterBlocks_spec next (mkRanges lengths) sp g hnd
  have hblock : ∀ s ∈ sp, (bl s).Perm
      (List.range' ((lengths.take s).sum) (lengths.getD s 0)) := by
    intro s hs
    have hslt : s < lengths.length := by
      have hmem : s ∈ List.range (mkRanges lengths).length := hsp.mem_iff.mp hs
      rw [List.mem_range, hmk, mkRanges_go_length] at hmem
      exact hmem
    have hgd := mkRanges_go_getD lengths 0 s hslt
    have hw : (lengths.take (s + 1)).sum - (lengths.take s).sum = lengths.getD s 0 := by
      rw [List.sum_take_succ lengths s hslt, getD_eq_get_of_lt lengths hslt]
      omega
    have := hbl2 s hs
    rw [hmk, hgd] at this
    simpa [hw] using this
  refine ⟨?_, bl, hbl1, hblock⟩
  rw [hbl1, ← List.flatMap_def]
  have h1 : (sp.flatMap bl).Perm
      (sp.flatMap (fun s => List.range' ((lengths.take s).sum) (lengths.getD s 0))) :=
    List.Perm.flatMap_left sp hblock
  have h2 : (sp.flatMap (fun s => List.range' ((lengths.take s).sum) (lengths.getD s 0))).Perm
      ((List.range (mkRanges lengths).length).flatMap
        (fun s => List.range' ((lengths.take s).sum) (lengths.getD s 0))) :=
    List.Perm.flatMap_right _ hsp
  have h3 : (List.range (mkRanges lengths).length).flatMap
      (fun s => List.range' ((lengths.take s).sum) (lengths.getD s 0))
      = List.range lengths.sum := by
    have hfun : ∀ s ∈ List.range (mkRanges lengths).length,
        List.range' ((lengths.take s).sum) (lengths.getD s 0)
          = List.range' ((mkRanges lengths).getD s (0, 0)).1
              (((mkRanges lengths).getD s (0, 0)).2 - ((mkRanges lengths).getD s (0, 0)).1) := by
      intro s hs
      rw [List.mem_range, hmk, mkRanges_go_length] at hs
      rw [hmk, mkRanges_go_getD lengths 0 s hs]
      have hw : (lengths.take (s + 1)).sum - (lengths.take s).sum = lengths.getD s 0 := by
        rw [List.sum_take_succ lengths s hs, getD_eq_get_of_lt lengths hs]
        omega
      simp [hw]
    rw [List.flatMap_def, List.flatMap_def] at *
    rw [List.map_congr_left hfun]
    rw [show (fun s => List.range' ((mkRanges lengths).getD s (0, 0)).1
        (((mkRanges lengths).getD s (0, 0)).2 - ((mkRanges lengths).getD s (0, 0)).1))
      = (fun s => (fun p : Nat × Nat => List.range' p.1 (p.2 - p.1))
          ((mkRanges lengths).getD s (0, 0))) from rfl]
    rw [map_getD_range (mkRanges lengths) (0, 0) (fun p => List.range' p.1 (p.2 - p.1))]
    rw [hmk, mkRanges_go_flatten lengths 0, List.range_eq_range']
  exact (h1.trans h2).trans (h3 ▸ List.Perm.refl _)

/-! ## Claim C5 -/

/-- C5: for every per-shard length list, every seed, and every epoch,
one full traversal of the sampler is an exact permutation of
`[0, total)`, and the output is a concatenation, over some permutation
of the shards, of blocks each of which is a permutation of one shard's
contiguous index range — so all indices of one shard appear contiguously
even though intra-shard order is randomized.  The generator is abstract
(`mkRandom`, `next` model `random.Random` and its `randbelow`). -/
theorem C5_sampler_permutation (σ : Type) (mkRandom : Int → σ) (next : σ → Nat × σ)
    (lengths : List Nat) (seed : Int) (epoch : Nat) (shufflefirst : Bool) :
    (ShardListSampler.output mkRandom next lengths seed epoch shufflefirst).Perm
      (List.range lengths.sum) ∧
    ∃ (order : List Nat) (bl : Nat → List Nat),
      order.Perm (List.range lengths.length) ∧
      ShardListSampler.output mkRandom next lengths seed epoch shufflefirst
        = (order.map bl).flatten ∧
      ∀ s ∈ order, (bl s).Perm
        (List.range' ((lengths.take s).sum) (lengths.getD s 0)) := by
  have hmk : mkRanges lengths = mkRanges_go 0 lengths := rfl
  have hlen : (mkRanges lengths).length = lengths.length := by
    rw [hmk, mkRanges_go_length]
  rcases hsh : (decide (0 < epoch) || shufflefirst) with _ | _
  · have hout : ShardListSampler.output mkRandom next lengths seed epoch shufflefirst
        = ShardListSampler.iterBlocks next (mkRanges lengths)
            (List.range (mkRanges lengths).length)
            (mkRandom (seed + 1289738273 * epoch)) := by
      unfold ShardListSampler.output ShardListSampler.iter
      rw [hsh]
      simp
    obtain ⟨hperm, bl, hb1, hb2⟩ := iterBlocks_perm_range next lengths
      (List.range (mkRanges lengths).length) (mkRandom (seed + 1289738273 * epoch))
      (List.Perm.refl _)
    rw [hout]
    exact ⟨hperm, List.range (mkRanges lengths).length, bl, hlen ▸ List.Perm.refl _,
      hb1, hb2⟩
  · have hout : ShardListSampler.output mkRandom next lengths seed epoch shufflefirst
        = ShardListSampler.iterBlocks next (mkRanges lengths)
            (pyShuffle next (mkRandom (seed + 1289738273 * epoch))
              (List.range (mkRanges lengths).length)).1
            (pyShuffle next (mkRandom (seed + 1289738273 * epoch))
              (List.range (mkRanges lengths).length)).2 := by
      unfold ShardListSampler.output ShardListSampler.iter
      rw [hsh]
      simp
    have hsp : ((pyShuffle next (mkRandom (seed + 1289738273 * epoch))
        (List.range (mkRanges lengths).length)).1).Perm
          (List.range (mkRanges lengths).length) :=
      pyShuffle_perm next _ _
    obtain ⟨hperm, bl, hb1, hb2⟩ := iterBlocks_perm_range next lengths _ _ hsp
    rw [hout]
    exact ⟨hperm, _, bl, hlen ▸ hsp, hb1, hb2⟩

/-! ## Claim C6 -/

/-- C6: the sampler's output is a deterministic function of
`(base seed, epoch, length list, shufflefirst)` (together with the
underlying generator implementation): any two traversals built from
equal inputs produce identical output index sequences.  In this pure
embedding the generator state is derived only from
`seed + 1289738273 * epoch`, so equal inputs give equal outputs. -/
theorem C6_sampler_deterministic (σ : Type) (mkRandom : Int → σ) (next : σ → Nat × σ)
    (l1 l2 : List Nat) (seed1 seed2 : Int) (epoch1 epoch2 : Nat) (f1 f2 : Bool)
    (hl : l1 = l2) (hs : seed1 = seed2) (he : epoch1 = epoch2) (hf : f1 = f2) :
    ShardListSampler.output mkRandom next l1 seed1 epoch1 f1
      = ShardListSampler.output mkRandom next l2 seed2 epoch2 f2 := by
  rw [hl, hs, he, hf]

/-- Witness for C6 at two syntactically equal inputs. -/
theorem C6_witness :
    ShardListSampler.output (fun i => i.toNat) (fun g => (g, g + 1)) [2, 1] 5 1 false
      = ShardListSampler.output (fun i => i.toNat) (fun g => (g, g + 1)) [2, 1] 5 1 false :=
  C6_sampler_deterministic Nat (fun i => i.toNat) (fun g => (g, g + 1))
    [2, 1] [2, 1] 5 5 1 1 false false rfl rfl rfl rfl

/-- Witness for C5 at lengths `[2, 1]` with a concrete generator. -/
theorem C5_witness :
    (ShardListSampler.output (fun i => i.toNat) (fun g => (g % 5, g + 3)) [2, 1] 0 1
      true).Perm (List.range ([2, 1] : List Nat).sum) :=
  (C5_sampler_permutation Nat (fun i => i.toNat) (fun g => (g % 5, g + 3)) [2, 1] 0 1 true).1
